import Mathlib

/-!
Verification development for a red-black tree implementation
(`red_black_tree.py`).  The Python code is a mutable, pointer-based
red-black tree: each node stores a value, a color (0 = red, 1 = black),
a parent back-reference and two child links, and the tree object stores
the root pointer together with an incrementally tracked `black_height`.

We embed the program shallowly: the heap of nodes becomes an arena
(`List RBNode`, nodes addressed by their index, mirroring object
identity), pointers become `Option Nat`, and every method becomes a
state-passing function.  Loops and recursive methods take fuel; a
result of `none` means the corresponding Python execution would either
dereference `None` (an `AttributeError`) or fail to terminate within
the fuel bound.  Every attribute read of the Python source is performed
against the state current at that program point, so the embedding
follows the source statement by statement.
-/

namespace RBT

/-- The node record of the source: `data`, `color` (0 red / 1 black),
`parent`, `left`, `right`.  Links are arena indices. -/
structure RBNode where
  data : Int
  color : Nat
  parent : Option Nat
  left : Option Nat
  right : Option Nat
deriving DecidableEq, Repr

/-- The tree object: the arena of allocated nodes, the root link, and
the incrementally tracked `black_height` field. -/
structure RedBlackTree where
  nodes : List RBNode
  root : Option Nat
  black_height : Int
deriving DecidableEq, Repr

/-- Read the node stored at arena index `i`. -/
def getN (t : RedBlackTree) (i : Nat) : Option RBNode :=
  t.nodes[i]?

/-- Write the `color` attribute of the node at index `i`. -/
def setColor (t : RedBlackTree) (i : Nat) (c : Nat) : RedBlackTree :=
  match t.nodes[i]? with
  | some n => { t with nodes := t.nodes.set i { n with color := c } }
  | none => t

/-- Write the `data` attribute of the node at index `i`. -/
def setData (t : RedBlackTree) (i : Nat) (d : Int) : RedBlackTree :=
  match t.nodes[i]? with
  | some n => { t with nodes := t.nodes.set i { n with data := d } }
  | none => t

/-- Write the `parent` attribute of the node at index `i`. -/
def setParent (t : RedBlackTree) (i : Nat) (p : Option Nat) : RedBlackTree :=
  match t.nodes[i]? with
  | some n => { t with nodes := t.nodes.set i { n with parent := p } }
  | none => t

/-- Write the `left` attribute of the node at index `i`. -/
def setLeft (t : RedBlackTree) (i : Nat) (l : Option Nat) : RedBlackTree :=
  match t.nodes[i]? with
  | some n => { t with nodes := t.nodes.set i { n with left := l } }
  | none => t

/-- Write the `right` attribute of the node at index `i`. -/
def setRight (t : RedBlackTree) (i : Nat) (r : Option Nat) : RedBlackTree :=
  match t.nodes[i]? with
  | some n => { t with nodes := t.nodes.set i { n with right := r } }
  | none => t

/-- The `while` loop of `search`: walk down from `cur` comparing `v`
with each node's data; return the found index, or `none` for the
Python `return False`. -/
def searchLoop (t : RedBlackTree) (v : Int) : Nat → Option Nat → Option (Option Nat)
  | 0, _ => none
  | _ + 1, none => some none
  | fuel + 1, some c =>
    match getN t c with
    | none => none
    | some n =>
      if v == n.data then some (some c)
      else if v < n.data then searchLoop t v fuel n.left
      else searchLoop t v fuel n.right

/-- `search(data)`: returns `some (some i)` when the value is found at
node `i`, `some none` for the source's `return False`, and `none` when
the walk does not terminate within the arena-size fuel bound. -/
def search (t : RedBlackTree) (v : Int) : Option (Option Nat) :=
  searchLoop t v (t.nodes.length + 1) t.root

/-- `rotation(current)`: rotates the node at index `c` upward past its
parent.  A left rotation when `c` is its parent's right child, a right
rotation otherwise; a no-op when `c` has no parent.  All reads happen
against the state current at the corresponding source line, including
the dead `current.parent = None` store of the right-rotation branch. -/
def rotation (t : RedBlackTree) (c : Nat) : Option RedBlackTree := do
  let cn ← getN t c
  match cn.parent with
  | none => some t
  | some p => do
    let pn ← getN t p
    if pn.right = some c then
      -- left rotation
      let t1 := setRight t p cn.left
      let t2 := match cn.left with
        | some m => setParent t1 m (some p)
        | none => t1
      if t2.root = some p then
        let t3 := { t2 with root := some c }
        let t4 := setParent t3 c none
        let t5 := setLeft t4 c (some p)
        some (setParent t5 p (some c))
      else do
        let pn2 ← getN t2 p
        match pn2.parent with
        | none => none
        | some g => do
          let gn ← getN t2 g
          let t3 := if gn.left = some p then setLeft t2 g (some c) else setRight t2 g (some c)
          let t4 := setParent t3 c (some g)
          let t5 := setLeft t4 c (some p)
          some (setParent t5 p (some c))
    else
      -- right rotation
      let t1 := setLeft t p cn.right
      let t2 := match cn.right with
        | some m => setParent (setParent t1 m (some p)) c none
        | none => t1
      if t2.root = some p then
        let t3 := { t2 with root := some c }
        let t4 := setParent t3 c none
        let t5 := setRight t4 c (some p)
        some (setParent t5 p (some c))
      else do
        let pn2 ← getN t2 p
        match pn2.parent with
        | none => none
        | some g => do
          let gn ← getN t2 g
          let t3 := if gn.left = some p then setLeft t2 g (some c) else setRight t2 g (some c)
          let t4 := setParent t3 c (some g)
          let t5 := setRight t4 c (some p)
          some (setParent t5 p (some c))

/-- The tail of `insert_rebalance` for a black (or absent) uncle:
rotate an inside child into an outside child (swapping the roles of
`current` and `parent`), rotate the outside child past the
grandparent, and recolor.  `par` is the role-adjusted parent. -/
def insert_rebalance_rotcase (t : RedBlackTree) (c p g : Nat) : Option RedBlackTree := do
  let pn ← getN t p
  let gn ← getN t g
  if gn.left = some p ∧ pn.right = some c then do
    let t1 ← rotation t c
    let t2 ← rotation t1 c
    some (setColor (setColor t2 g 0) c 1)
  else if gn.right = some p ∧ pn.left = some c then do
    let t1 ← rotation t c
    let t2 ← rotation t1 c
    some (setColor (setColor t2 g 0) c 1)
  else do
    let t2 ← rotation t p
    some (setColor (setColor t2 g 0) p 1)

/-- `insert_rebalance(current)`: repairs a red-red violation at `c`.
The red-uncle case recolors and possibly recurses on the grandparent;
the black-uncle case delegates to `insert_rebalance_rotcase`. -/
def insert_rebalance (t : RedBlackTree) (c : Nat) : Nat → Option RedBlackTree
  | 0 => none
  | fuel + 1 => do
    let cn ← getN t c
    match cn.parent with
    | none => none
    | some p => do
      let pn ← getN t p
      match pn.parent with
      | none => none
      | some g => do
        let gn ← getN t g
        let uncle := if gn.left = some p then gn.right else gn.left
        match uncle with
        | some u => do
          let un ← getN t u
          if un.color == 0 then
            let t3 := setColor (setColor (setColor t p 1) u 1) g 0
            if t3.root = some g then
              let t4 := setColor t3 g 1
              some { t4 with black_height := t4.black_height + 1 }
            else do
              let gn2 ← getN t3 g
              if gn2.parent = t3.root then some t3
              else
                match gn2.parent with
                | none => none
                | some gg => do
                  let ggn ← getN t3 gg
                  if ggn.color == 0 then insert_rebalance t3 g fuel else some t3
          else
            insert_rebalance_rotcase t c p g
        | none => insert_rebalance_rotcase t c p g

/-- The BST descent loop of `insert`: find the null position for `v`,
allocate the new red node there (at the next arena index) with its
parent link set, and return the updated tree and the new index. -/
def insertLoop (t : RedBlackTree) (v : Int) : Nat → Nat → Option (RedBlackTree × Nat)
  | 0, _ => none
  | fuel + 1, c => do
    let cn ← getN t c
    if v < cn.data then
      match cn.left with
      | some l => insertLoop t v fuel l
      | none =>
        let idx := t.nodes.length
        let t1 := { t with nodes := t.nodes ++ [⟨v, 0, some c, none, none⟩] }
        some (setLeft t1 c (some idx), idx)
    else
      match cn.right with
      | some r => insertLoop t v fuel r
      | none =>
        let idx := t.nodes.length
        let t1 := { t with nodes := t.nodes ++ [⟨v, 0, some c, none, none⟩] }
        some (setRight t1 c (some idx), idx)

/-- `insert(data)`: an empty tree gets a black root and a
`black_height` increment; otherwise a red leaf is attached by the BST
descent and `insert_rebalance` runs when the new node's parent is red. -/
def insert (t : RedBlackTree) (v : Int) (fuel : Nat) : Option RedBlackTree :=
  match t.root with
  | none =>
    some { nodes := t.nodes ++ [⟨v, 1, none, none, none⟩],
           root := some t.nodes.length,
           black_height := t.black_height + 1 }
  | some r => do
    let (t1, c) ← insertLoop t v (t.nodes.length + 1) r
    let cn ← getN t1 c
    match cn.parent with
    | none => none
    | some p => do
      let pn ← getN t1 p
      if pn.color == 0 then insert_rebalance t1 c fuel else some t1

/-- The predecessor loop of `delete_helper`: follow `right` links from
`i`, counting steps, until a node with no right child is reached. -/
def chainRight (t : RedBlackTree) : Nat → Nat → Nat → Option (Nat × Nat)
  | 0, _, _ => none
  | fuel + 1, i, cnt => do
    let n ← getN t i
    match n.right with
    | none => some (i, cnt)
    | some j => chainRight t fuel j (cnt + 1)

/-- The successor loop of `delete_helper`: follow `left` links from
`i`, counting steps, until a node with no left child is reached. -/
def chainLeft (t : RedBlackTree) : Nat → Nat → Nat → Option (Nat × Nat)
  | 0, _, _ => none
  | fuel + 1, i, cnt => do
    let n ← getN t i
    match n.left with
    | none => some (i, cnt)
    | some j => chainLeft t fuel j (cnt + 1)

/-- The source condition `x is not None and x.color == 0`. -/
def redOpt (t : RedBlackTree) (o : Option Nat) : Option Bool :=
  match o with
  | none => some false
  | some i => (getN t i).map (fun n => n.color == 0)

/-- The source condition `x is None or x.color == 1`. -/
def blackOpt (t : RedBlackTree) (o : Option Nat) : Option Bool :=
  match o with
  | none => some true
  | some i => (getN t i).map (fun n => n.color == 1)

/-- The terminal cases 3 and 4 of `delete_rebalance`: with a black
sibling `s1` owning at least one red child, turn an inside red nephew
outward if the outside child is black, then rotate the sibling past
the parent and recolor.  `sibRight1` tells which side the sibling is
on; `slB` and `srB` are the blackness of the sibling's children. -/
def delete_rebalance_endcase (t1 : RedBlackTree) (p s1 : Nat) (sn1 : RBNode)
    (slB srB sibRight1 : Bool) : Option (RedBlackTree × Bool) := do
  if sibRight1 then do
    let (t2, s2) ←
      if srB then do
        let nephew ← sn1.left
        let ta ← rotation t1 nephew
        pure (setColor (setColor ta nephew 1) s1 0, nephew)
      else pure (t1, s1)
    let t3 ← rotation t2 s2
    let pn4 ← getN t3 p
    let t4 := setColor (setColor t3 s2 pn4.color) p 1
    let sn2 ← getN t4 s2
    let sr ← sn2.right
    some (setColor t4 sr 1, true)
  else do
    let (t2, s2) ←
      if slB then do
        let nephew ← sn1.right
        let ta ← rotation t1 nephew
        pure (setColor (setColor ta nephew 1) s1 0, nephew)
      else pure (t1, s1)
    let t3 ← rotation t2 s2
    let pn4 ← getN t3 p
    let t4 := setColor (setColor t3 s2 pn4.color) p 1
    let sn2 ← getN t4 s2
    let sl ← sn2.left
    some (setColor t4 sl 1, true)

/-- `delete_rebalance(current)`: the double-black repair.  Trivial
red-child recoloring and the root check come first; the red-sibling
case rotates and falls through; with a black sibling, the
both-children-black case either recurses on a black parent (and only
afterwards recolors the sibling red) or terminally recolors, and the
remaining cases are `delete_rebalance_endcase`. -/
def delete_rebalance (t : RedBlackTree) (c : Nat) : Nat → Option (RedBlackTree × Bool)
  | 0 => none
  | fuel + 1 => do
    let cn ← getN t c
    let lRed ← redOpt t cn.left
    if lRed then do
      let l ← cn.left
      some (setColor t l 1, true)
    else do
      let rRed ← redOpt t cn.right
      if rRed then do
        let r ← cn.right
        some (setColor t r 1, true)
      else
        if t.root = some c then some (t, true)
        else do
          let p ← cn.parent
          let pn ← getN t p
          let (sib0, sibRight0) :=
            if pn.left = some c then (pn.right, true) else (pn.left, false)
          let s0 ← sib0
          let sn0 ← getN t s0
          let (t1, s1, sibRight1) ←
            if sn0.color == 0 then do
              let ta ← rotation t s0
              let tb := setColor (setColor ta p 0) s0 1
              let pn2 ← getN tb p
              if pn2.left = some c then do
                let s ← pn2.right
                pure (tb, s, true)
              else do
                let s ← pn2.left
                pure (tb, s, false)
            else pure (t, s0, sibRight0)
          let sn1 ← getN t1 s1
          let slB ← blackOpt t1 sn1.left
          let srB ← blackOpt t1 sn1.right
          if slB && srB then do
            let pn3 ← getN t1 p
            if pn3.color == 1 then do
              let (t2, success) ← delete_rebalance t1 p fuel
              some (setColor t2 s1 0, success)
            else
              some (setColor (setColor t1 s1 0) p 1, true)
          else
            delete_rebalance_endcase t1 p s1 sn1 slB srB sibRight1

/-- `delete_helper(current)`: splice out a node with at most one child
(running `delete_rebalance` first when the removed node is black), or
for a node with two children swap its value with the deeper of the
in-order predecessor and successor (ties to the successor) and recurse
on that donor. -/
def delete_helper (t : RedBlackTree) (c : Nat) : Nat → Option (RedBlackTree × Bool)
  | 0 => none
  | fuel + 1 => do
    let cn ← getN t c
    match cn.left, cn.right with
    | none, none =>
      match cn.parent with
      | some p => do
        let t1 ←
          if cn.color == 1 then do
            let (ta, _) ← delete_rebalance t c fuel
            pure ta
          else pure t
        let pn ← getN t1 p
        let t2 := if pn.left = some c then setLeft t1 p none else setRight t1 p none
        some (setParent t2 c none, true)
      | none => some ({ t with root := none }, true)
    | none, some _ => do
      let t1 ←
        if cn.color == 1 then do
          let (ta, _) ← delete_rebalance t c fuel
          pure ta
        else pure t
      let cn1 ← getN t1 c
      match cn.parent with
      | some p => do
        let pn ← getN t1 p
        if pn.left = some c then do
          let t2 := setLeft t1 p cn1.right
          let rc ← cn1.right
          some (setParent t2 rc (some p), true)
        else do
          let t2 := setRight t1 p cn1.right
          let rc ← cn1.right
          some (setParent t2 rc (some p), true)
      | none => do
        let t2 := { t1 with root := cn1.right }
        let rc ← cn1.right
        some (setParent t2 rc none, true)
    | some _, none => do
      let t1 ←
        if cn.color == 1 then do
          let (ta, _) ← delete_rebalance t c fuel
          pure ta
        else pure t
      let cn1 ← getN t1 c
      match cn.parent with
      | some p => do
        let pn ← getN t1 p
        if pn.left = some c then do
          let t2 := setLeft t1 p cn1.left
          let lc ← cn1.left
          some (setParent t2 lc (some p), true)
        else do
          let t2 := setRight t1 p cn1.left
          let lc ← cn1.left
          some (setParent t2 lc (some p), true)
      | none => do
        let t2 := { t1 with root := cn1.left }
        let lc ← cn1.left
        some (setParent t2 lc none, true)
    | some l, some r => do
      let (ip, ic) ← chainRight t (t.nodes.length + 1) l 0
      let (su, sc) ← chainLeft t (t.nodes.length + 1) r 0
      if sc < ic then do
        let ipn ← getN t ip
        let t1 := setData (setData t c ipn.data) ip cn.data
        delete_helper t1 ip fuel
      else do
        let sun ← getN t su
        let t1 := setData (setData t c sun.data) su cn.data
        delete_helper t1 su fuel

/-- `delete(data)`: search for the value; on `False` return `False`
without touching the tree, otherwise run `delete_helper` on the found
node. -/
def delete (t : RedBlackTree) (v : Int) (fuel : Nat) : Option (RedBlackTree × Bool) := do
  let r ← search t v
  match r with
  | none => some (t, false)
  | some c => delete_helper t c fuel

/-! ## Observations and invariant checkers

These definitions do not come from the source's methods; they express
the spec's data-model invariants and the in-order traversal as
executable scans over the arena, for stating the claims. -/

/-- Values of the subtree hanging from link `o`, in in-order. -/
def inorderVals (t : RedBlackTree) : Nat → Option Nat → Option (List Int)
  | 0, _ => none
  | _ + 1, none => some []
  | fuel + 1, some i =>
    match getN t i with
    | none => none
    | some n => do
      let L ← inorderVals t fuel n.left
      let R ← inorderVals t fuel n.right
      some (L ++ n.data :: R)

/-- In-order value sequence of the whole tree. -/
def inorder (t : RedBlackTree) : Option (List Int) :=
  inorderVals t (t.nodes.length + 1) t.root

/-- Invariant 1 of the spec: at every node, every value of the left
subtree is strictly less than the node's value and every value of the
right subtree is greater or equal. -/
def bstOk (t : RedBlackTree) : Nat → Option Nat → Option Bool
  | 0, _ => none
  | _ + 1, none => some true
  | fuel + 1, some i =>
    match getN t i with
    | some n => do
      let L ← inorderVals t fuel n.left
      let R ← inorderVals t fuel n.right
      let bL ← bstOk t fuel n.left
      let bR ← bstOk t fuel n.right
      some (L.all (fun x => x < n.data) && R.all (fun x => n.data ≤ x) && bL && bR)
    | none => none

/-- Invariant 1 checked from the root. -/
def inv1 (t : RedBlackTree) : Option Bool :=
  bstOk t (t.nodes.length + 1) t.root

/-- Invariant 2 of the spec: the root is black when the tree is
non-empty. -/
def inv2 (t : RedBlackTree) : Option Bool :=
  match t.root with
  | none => some true
  | some r => (getN t r).map (fun n => n.color == 1)

/-- Helper for invariant 3: no red node with a red child below `o`. -/
def noRedRed (t : RedBlackTree) : Nat → Option Nat → Option Bool
  | 0, _ => none
  | _ + 1, none => some true
  | fuel + 1, some i =>
    match getN t i with
    | some n => do
      let lRed ← redOpt t n.left
      let rRed ← redOpt t n.right
      let bL ← noRedRed t fuel n.left
      let bR ← noRedRed t fuel n.right
      some ((!(n.color == 0) || (!lRed && !rRed)) && bL && bR)
    | none => none

/-- Invariant 3 checked from the root. -/
def inv3 (t : RedBlackTree) : Option Bool :=
  noRedRed t (t.nodes.length + 1) t.root

/-- Black-node count of all paths below link `o`: `some (some h)` when
every path to a null-leaf passes `h` black nodes (the subtree root
included), `some none` when two paths disagree. -/
def blackCount (t : RedBlackTree) : Nat → Option Nat → Option (Option Nat)
  | 0, _ => none
  | _ + 1, none => some (some 0)
  | fuel + 1, some i =>
    match getN t i with
    | some n => do
      let L ← blackCount t fuel n.left
      let R ← blackCount t fuel n.right
      match L, R with
      | some a, some b =>
        if a = b then some (some (a + (if n.color == 1 then 1 else 0))) else some none
      | _, _ => some none
    | none => none

/-- Invariant 4 checked from the root: all root-to-null-leaf paths
carry the same number of black nodes. -/
def inv4 (t : RedBlackTree) : Option Bool :=
  (blackCount t (t.nodes.length + 1) t.root).map Option.isSome

/-- A public operation of the tree API. -/
inductive Op where
  | ins (v : Int)
  | del (v : Int)
deriving DecidableEq, Repr

/-- Run one public operation, with the arena-size fuel bound for the
recursive rebalancing procedures. -/
def applyOp (t : RedBlackTree) : Op → Option RedBlackTree
  | .ins v => insert t v (t.nodes.length + 1)
  | .del v => (delete t v (t.nodes.length + 1)).map Prod.fst

/-- The empty tree produced by the constructor. -/
def empty : RedBlackTree := ⟨[], none, 0⟩

/-- Run a sequence of public operations from the empty tree. -/
def runOps (ops : List Op) : Option RedBlackTree :=
  ops.foldlM applyOp empty

/-- Reachability along child links: `Reach t o i` says that the node
at index `i` lies in the subtree hanging from the link `o`. -/
inductive Reach (t : RedBlackTree) : Option Nat → Nat → Prop
  | refl (i : Nat) : Reach t (some i) i
  | left {i j : Nat} {n : RBNode} :
      getN t i = some n → Reach t n.left j → Reach t (some i) j
  | right {i j : Nat} {n : RBNode} :
      getN t i = some n → Reach t n.right j → Reach t (some i) j

/-- The indices of the subtree hanging from link `o`, in pre-order. -/
def reachL (t : RedBlackTree) : Nat → Option Nat → Option (List Nat)
  | 0, _ => none
  | _ + 1, none => some []
  | fuel + 1, some i =>
    match getN t i with
    | none => none
    | some n => do
      let L ← reachL t fuel n.left
      let R ← reachL t fuel n.right
      some (i :: (L ++ R))

/-- The part of a node that an in-order traversal reads: its value and
its two child links (parent pointers and colors are invisible to it). -/
def shape (t : RedBlackTree) (i : Nat) : Option (Int × Option Nat × Option Nat) :=
  (getN t i).map fun n => (n.data, n.left, n.right)

/-- The color stored at index `i`. -/
def colorOf (t : RedBlackTree) (i : Nat) : Option Nat :=
  (getN t i).map RBNode.color

/-- A downward path of child links from the link `o` to the node `g`. -/
inductive PathDown (t : RedBlackTree) (g : Nat) : Option Nat → Prop
  | here : PathDown t g (some g)
  | left {i : Nat} {n : RBNode} :
      getN t i = some n → PathDown t g n.left → PathDown t g (some i)
  | right {i : Nat} {n : RBNode} :
      getN t i = some n → PathDown t g n.right → PathDown t g (some i)

/-- The spec's parent/child link consistency at one node: a null
parent means the node is the root, and a non-null parent owns the node
through one of its child links. -/
def parentConsistentAt (t : RedBlackTree) (j : Nat) : Prop :=
  ∀ n, getN t j = some n →
    (n.parent = none → t.root = some j) ∧
    (∀ q qn, n.parent = some q → getN t q = some qn →
      qn.left = some j ∨ qn.right = some j)

/-! ## Claim-specific concrete inputs and spec-worded variants -/

/-- The operation sequence exhibiting the invariant-1 violation:
after inserting 5, 3, 7, 3 the tree is `5B(3B(_,3R),7B)`; deleting 5
picks the in-order predecessor (the red duplicate 3, one step deeper
than the successor 7), swaps its value into the root and removes it,
leaving a root valued 3 whose left child is also valued 3. -/
def c1ops : List Op := [.ins 5, .ins 3, .ins 7, .ins 3, .del 5]

/-- The operation sequence exhibiting the stale `black_height`:
insert 1, 2, 3, 4 (tracked black height becomes 2), delete 1 (a case-4
repair), then delete 2 (the recursive both-children-black repair,
which lowers the real black height of every path to 1) — but `delete`
never decrements the `black_height` field. -/
def c3ops : List Op := [.ins 1, .ins 2, .ins 3, .ins 4, .del 1, .del 2]

/-- Modelled from the spec's words for claim C8 (the source differs):
a copy of `delete_rebalance` whose only change is in the
sibling-black/both-children-black/parent-black case, where the spec
says the sibling is recolored red **before** the recursive call and
red again afterwards.  Everything else is identical to
`delete_rebalance`. -/
def delete_rebalance_claimed (t : RedBlackTree) (c : Nat) : Nat → Option (RedBlackTree × Bool)
  | 0 => none
  | fuel + 1 => do
    let cn ← getN t c
    let lRed ← redOpt t cn.left
    if lRed then do
      let l ← cn.left
      some (setColor t l 1, true)
    else do
      let rRed ← redOpt t cn.right
      if rRed then do
        let r ← cn.right
        some (setColor t r 1, true)
      else
        if t.root = some c then some (t, true)
        else do
          let p ← cn.parent
          let pn ← getN t p
          let (sib0, sibRight0) :=
            if pn.left = some c then (pn.right, true) else (pn.left, false)
          let s0 ← sib0
          let sn0 ← getN t s0
          let (t1, s1, sibRight1) ←
            if sn0.color == 0 then do
              let ta ← rotation t s0
              let tb := setColor (setColor ta p 0) s0 1
              let pn2 ← getN tb p
              if pn2.left = some c then do
                let s ← pn2.right
                pure (tb, s, true)
              else do
                let s ← pn2.left
                pure (tb, s, false)
            else pure (t, s0, sibRight0)
          let sn1 ← getN t1 s1
          let slB ← blackOpt t1 sn1.left
          let srB ← blackOpt t1 sn1.right
          if slB && srB then do
            let pn3 ← getN t1 p
            if pn3.color == 1 then do
              let (t2, success) ← delete_rebalance_claimed (setColor t1 s1 0) p fuel
              some (setColor t2 s1 0, success)
            else
              some (setColor (setColor t1 s1 0) p 1, true)
          else
            delete_rebalance_endcase t1 p s1 sn1 slB srB sibRight1

/-- A complete, all-black 7-node tree (black height 3):
`4B(2B(1B,3B),6B(5B,7B))`, laid out breadth-first in the arena. -/
def deepTree : RedBlackTree :=
  ⟨[⟨4, 1, none, some 1, some 2⟩,
    ⟨2, 1, some 0, some 3, some 4⟩,
    ⟨6, 1, some 0, some 5, some 6⟩,
    ⟨1, 1, some 1, none, none⟩,
    ⟨3, 1, some 1, none, none⟩,
    ⟨5, 1, some 2, none, none⟩,
    ⟨7, 1, some 2, none, none⟩],
   some 0, 3⟩

/-- A single black node holding the value 1. -/
def oneTree : RedBlackTree := ⟨[⟨1, 1, none, none, none⟩], some 0, 1⟩

/-- The tree `5B(3B(_,3R),7B)` produced by inserting 5, 3, 7, 3: the
root at index 0 has two children, its in-order predecessor (index 3,
one right-step below the left child) is deeper than its in-order
successor (index 2, the right child itself). -/
def twoChildTree : RedBlackTree :=
  ⟨[⟨5, 1, none, some 1, some 2⟩,
    ⟨3, 1, some 0, none, some 3⟩,
    ⟨7, 1, some 0, none, none⟩,
    ⟨3, 0, some 1, none, none⟩],
   some 0, 2⟩

/-! ## Theorems -/

/-- C1: after the sequence insert 5, insert 3, insert 7, insert 3,
delete 5, the binary-search-tree invariant 1 (left subtree strictly
less, duplicates to the right) is violated, while invariants 2, 3 and
4 still hold.  This refutes the claim that invariants 1-4 hold after
every sequence of insert/delete operations. -/
theorem c1_invariant1_violated :
    (runOps c1ops).bind inv1 = some false ∧
    (runOps c1ops).bind inv2 = some true ∧
    (runOps c1ops).bind inv3 = some true ∧
    (runOps c1ops).bind inv4 = some true := by decide

/-- C3: after insert 1, 2, 3, 4, delete 1, delete 2, every
root-to-leaf path passes exactly 1 black node (the paths are
uniform), yet the tracked `black_height` field still holds 2: the
field is not maintained across deletions. -/
theorem c3_black_height_stale :
    (runOps c3ops).map
        (fun t => (blackCount t (t.nodes.length + 1) t.root, t.black_height)) =
      some (some (some 1), 2) := by decide

/-- Soundness of the search loop: when it returns a node index, that
node is reachable from the starting link and holds the searched
value. -/
theorem searchLoop_sound (t : RedBlackTree) (v : Int) :
    ∀ fuel o i, searchLoop t v fuel o = some (some i) →
      Reach t o i ∧ ∃ n, getN t i = some n ∧ n.data = v := by
  intro fuel
  induction fuel with
  | zero => intro o i h; simp [searchLoop] at h
  | succ k ih =>
    intro o i h
    cases o with
    | none => simp [searchLoop] at h
    | some c =>
      cases hg : getN t c with
      | none => simp [searchLoop, hg] at h
      | some n =>
        simp only [searchLoop, hg] at h
        by_cases he : v == n.data
        · rw [if_pos he] at h
          obtain rfl : c = i := by simpa using h
          exact ⟨Reach.refl c, n, hg, (eq_of_beq he).symm⟩
        · rw [if_neg he] at h
          by_cases hlt : v < n.data
          · rw [if_pos hlt] at h
            obtain ⟨hr, hn⟩ := ih n.left i h
            exact ⟨Reach.left hg hr, hn⟩
          · rw [if_neg hlt] at h
            obtain ⟨hr, hn⟩ := ih n.right i h
            exact ⟨Reach.right hg hr, hn⟩

/-- C10: deleting a value that no reachable node holds returns `false`
and the very same tree object — structure, colors, links and
`black_height` all unchanged.  The hypothesis `hsearch` says the
search walk terminates (it always does on well-formed trees). -/
theorem delete_absent_keeps_tree (t : RedBlackTree) (v : Int) (fuel : Nat) (r : Option Nat)
    (habs : ∀ i n, Reach t t.root i → getN t i = some n → n.data ≠ v)
    (hsearch : search t v = some r) :
    delete t v fuel = some (t, false) := by
  have hr : r = none := by
    cases r with
    | none => rfl
    | some i =>
      obtain ⟨hre, n, hn, hd⟩ := searchLoop_sound t v _ _ i hsearch
      exact absurd hd (habs i n hre hn)
  subst hr
  simp [delete, hsearch]

/-- Nothing is reachable from a null link. -/
theorem reach_none_false {t : RedBlackTree} {j : Nat} : ¬ Reach t none j :=
  fun h => nomatch h

/-- Reading back the node whose `data` was just overwritten. -/
theorem getN_setData_self {t : RedBlackTree} {i : Nat} {n : RBNode}
    (h : getN t i = some n) (d : Int) :
    getN (setData t i d) i = some { n with data := d } := by
  have hlt : i < t.nodes.length := by
    by_contra hge
    rw [getN, List.getElem?_eq_none (Nat.le_of_not_lt hge)] at h
    exact nomatch h
  rw [setData]
  rw [getN] at h
  rw [h]
  simp [getN, List.getElem?_set_self hlt]

/-- Overwriting the `data` of one node leaves every other index
unchanged. -/
theorem getN_setData_ne {t : RedBlackTree} {i j : Nat} (hne : i ≠ j) (d : Int) :
    getN (setData t i d) j = getN t j := by
  rw [setData]
  cases h : t.nodes[i]? with
  | none => rfl
  | some n => simp [getN, List.getElem?_set_ne hne]

/-- The predecessor loop stops at a node with no right child. -/
theorem chainRight_no_right (t : RedBlackTree) :
    ∀ fuel i cnt j k, chainRight t fuel i cnt = some (j, k) →
      ∃ n, getN t j = some n ∧ n.right = none := by
  intro fuel
  induction fuel with
  | zero => intro i cnt j k h; simp [chainRight] at h
  | succ f ih =>
    intro i cnt j k h
    cases hg : getN t i with
    | none => simp [chainRight, hg] at h
    | some n =>
      cases hnr : n.right with
      | none =>
        simp [chainRight, hg, hnr] at h
        exact ⟨n, h.1 ▸ hg, hnr⟩
      | some nx =>
        simp [chainRight, hg, hnr] at h
        exact ih nx (cnt + 1) j k h

/-- The successor loop stops at a node with no left child. -/
theorem chainLeft_no_left (t : RedBlackTree) :
    ∀ fuel i cnt j k, chainLeft t fuel i cnt = some (j, k) →
      ∃ n, getN t j = some n ∧ n.left = none := by
  intro fuel
  induction fuel with
  | zero => intro i cnt j k h; simp [chainLeft] at h
  | succ f ih =>
    intro i cnt j k h
    cases hg : getN t i with
    | none => simp [chainLeft, hg] at h
    | some n =>
      cases hnl : n.left with
      | none =>
        simp [chainLeft, hg, hnl] at h
        exact ⟨n, h.1 ▸ hg, hnl⟩
      | some nx =>
        simp [chainLeft, hg, hnl] at h
        exact ih nx (cnt + 1) j k h

/-- C7: for a node with two children, `delete_helper` computes the
in-order predecessor by the right-chain of the left child and the
in-order successor by the left-chain of the right child, picks
whichever lies at the end of the strictly longer chain (ties going to
the successor), copies the donor's value into the target node
(swapping the target's value into the donor), and recurses on the
donor — which has no right child (predecessor case) or no left child
(successor case), hence at most one child. -/
theorem delete_helper_two_children
    (t : RedBlackTree) (c l r ip ic su sc fuel : Nat) (cn ipn sun : RBNode)
    (hc : getN t c = some cn) (hl : cn.left = some l) (hr : cn.right = some r)
    (hpred : chainRight t (t.nodes.length + 1) l 0 = some (ip, ic))
    (hsucc : chainLeft t (t.nodes.length + 1) r 0 = some (su, sc))
    (hipn : getN t ip = some ipn) (hsun : getN t su = some sun)
    (hip : ip ≠ c) (hsu : su ≠ c) :
    ipn.right = none ∧ sun.left = none ∧
    delete_helper t c (fuel + 1) =
      (if sc < ic then
        delete_helper (setData (setData t c ipn.data) ip cn.data) ip fuel
       else
        delete_helper (setData (setData t c sun.data) su cn.data) su fuel) ∧
    (getN (setData (setData t c (if sc < ic then ipn.data else sun.data))
            (if sc < ic then ip else su) cn.data) c).map RBNode.data =
      some (if sc < ic then ipn.data else sun.data) := by
  obtain ⟨n1, hn1, hn1r⟩ := chainRight_no_right t _ l 0 ip ic hpred
  obtain ⟨n2, hn2, hn2l⟩ := chainLeft_no_left t _ r 0 su sc hsucc
  have e1 : n1 = ipn := by
    have h' := hipn
    rw [hn1] at h'
    exact Option.some.inj h'
  have e2 : n2 = sun := by
    have h' := hsun
    rw [hn2] at h'
    exact Option.some.inj h'
  refine ⟨e1 ▸ hn1r, e2 ▸ hn2l, ?_, ?_⟩
  · simp [delete_helper, hc]
    rw [hl, hr]
    simp [hpred, hsucc]
    by_cases hlt : sc < ic
    · simp [hlt, hipn]
    · simp [hlt, hsun]
  · by_cases hlt : sc < ic
    · simp only [if_pos hlt]
      rw [getN_setData_ne hip, getN_setData_self hc]
      rfl
    · simp only [if_neg hlt]
      rw [getN_setData_ne hsu, getN_setData_self hc]
      rfl

/-- Counterexample for C8: on the all-black 7-node tree, running the
repair at the leaf holding 1 under the spec's description (sibling
recolored red **before** the recursive call and red again afterwards)
produces a different tree than the source's `delete_rebalance` (the
early recoloring makes the recursive call take the trivial red-child
branch, so the repair never reaches the upper levels: node 6 stays
black instead of turning red). -/
theorem delete_rebalance_claimed_differs :
    delete_rebalance_claimed deepTree 3 10 ≠ delete_rebalance deepTree 3 10 := by decide

set_option maxHeartbeats 2000000 in
/-- C8 (amended): in the sibling-black, both-sibling-children-black,
parent-black case, `delete_rebalance` first recurses on the parent
with the tree not yet modified — the sibling still black — and performs its
single red recoloring of the sibling only after the recursive call
returns. -/
theorem delete_rebalance_recolors_after (t : RedBlackTree) (c p s fuel : Nat)
    (cn pn sn : RBNode)
    (hc : getN t c = some cn)
    (hlB : redOpt t cn.left = some false)
    (hrB : redOpt t cn.right = some false)
    (hroot : t.root ≠ some c)
    (hp : cn.parent = some p)
    (hpn : getN t p = some pn)
    (hsib : (if pn.left = some c then pn.right else pn.left) = some s)
    (hsn : getN t s = some sn)
    (hsBlack : sn.color = 1)
    (hslB : blackOpt t sn.left = some true)
    (hsrB : blackOpt t sn.right = some true)
    (hpBlack : pn.color = 1) :
    delete_rebalance t c (fuel + 1) =
      (delete_rebalance t p fuel).map (fun res => (setColor res.1 s 0, res.2)) := by
  by_cases hrel : pn.left = some c
  · rw [if_pos hrel] at hsib
    simp [delete_rebalance, hc, hlB, hrB, hroot, hp, hpn, hrel, hsib, hsn,
      hsBlack, hslB, hsrB, hpBlack]
    cases delete_rebalance t p fuel <;> simp
  · rw [if_neg hrel] at hsib
    have hne : ¬ s = c := by
      intro he
      exact hrel (by rw [hsib, he])
    simp [delete_rebalance, hc, hlB, hrB, hroot, hp, hpn, hrel, hsib, hne, hsn,
      hsBlack, hslB, hsrB, hpBlack]
    cases delete_rebalance t p fuel <;> simp

/-- Witness for the amended C8: at the leaf holding 1 in the all-black
7-node tree (parent index 1, sibling index 4), one step of
`delete_rebalance` is the recursion on the parent followed by the
recoloring of the sibling. -/
theorem delete_rebalance_recolors_after_witness :
    delete_rebalance deepTree 3 10 =
      (delete_rebalance deepTree 1 9).map (fun res => (setColor res.1 4 0, res.2)) :=
  delete_rebalance_recolors_after deepTree 3 1 4 9
    ⟨1, 1, some 1, none, none⟩ ⟨2, 1, some 0, some 3, some 4⟩ ⟨3, 1, some 1, none, none⟩
    rfl rfl rfl (by decide) rfl rfl rfl rfl rfl rfl rfl rfl

/-- Witness for C7: in the tree `5B(3B(_,3R),7B)` the root (index 0)
has two children; the predecessor chain has length 1, the successor
chain length 0, so the deeper predecessor (index 3) is the donor. -/
theorem delete_helper_two_children_witness :
    (⟨3, 0, some 1, none, none⟩ : RBNode).right = none ∧
    (⟨7, 1, some 0, none, none⟩ : RBNode).left = none ∧
    delete_helper twoChildTree 0 7 =
      (if 0 < 1 then
        delete_helper (setData (setData twoChildTree 0 3) 3 5) 3 6
       else
        delete_helper (setData (setData twoChildTree 0 7) 2 5) 2 6) ∧
    (getN (setData (setData twoChildTree 0 (if 0 < 1 then 3 else 7))
            (if 0 < 1 then 3 else 2) 5) 0).map RBNode.data =
      some (if 0 < 1 then 3 else 7) :=
  delete_helper_two_children twoChildTree 0 1 2 3 1 2 0 6
    ⟨5, 1, none, some 1, some 2⟩ ⟨3, 0, some 1, none, none⟩ ⟨7, 1, some 0, none, none⟩
    rfl rfl rfl rfl rfl rfl rfl (by decide) (by decide)

/-- Witness for C10: deleting 2 from the one-node tree holding 1
returns `false` and leaves the tree untouched. -/
theorem delete_absent_keeps_tree_witness :
    delete oneTree 2 5 = some (oneTree, false) :=
  delete_absent_keeps_tree oneTree 2 5 none
    (by
      intro i n hr hn
      have hr0 : Reach oneTree (some 0) i := hr
      cases hr0 with
      | refl =>
        have h2 := Option.some.inj hn
        rw [← h2]
        decide
      | left hg hrest =>
        have h2 := Option.some.inj hg
        rw [← h2] at hrest
        exact absurd hrest reach_none_false
      | right hg hrest =>
        have h2 := Option.some.inj hg
        rw [← h2] at hrest
        exact absurd hrest reach_none_false)
    rfl

/-! ### Arena read/write lemmas -/

theorem getN_lt_length {t : RedBlackTree} {i : Nat} {n : RBNode}
    (h : getN t i = some n) : i < t.nodes.length := by
  by_contra hge
  rw [getN, List.getElem?_eq_none (Nat.le_of_not_lt hge)] at h
  exact nomatch h

theorem getN_setLeft_self {t : RedBlackTree} {i : Nat} {n : RBNode}
    (h : getN t i = some n) (q : Option Nat) :
    getN (setLeft t i q) i = some { n with left := q } := by
  rw [setLeft]
  rw [getN] at h
  rw [h]
  simp [getN, List.getElem?_set_self (getN_lt_length (show getN t i = some n from h))]

theorem getN_setLeft_ne {t : RedBlackTree} {i j : Nat} (hne : i ≠ j) (q : Option Nat) :
    getN (setLeft t i q) j = getN t j := by
  rw [setLeft]
  cases h : t.nodes[i]? with
  | none => rfl
  | some n => simp [getN, List.getElem?_set_ne hne]

theorem getN_setRight_self {t : RedBlackTree} {i : Nat} {n : RBNode}
    (h : getN t i = some n) (q : Option Nat) :
    getN (setRight t i q) i = some { n with right := q } := by
  rw [setRight]
  rw [getN] at h
  rw [h]
  simp [getN, List.getElem?_set_self (getN_lt_length (show getN t i = some n from h))]

theorem getN_setRight_ne {t : RedBlackTree} {i j : Nat} (hne : i ≠ j) (q : Option Nat) :
    getN (setRight t i q) j = getN t j := by
  rw [setRight]
  cases h : t.nodes[i]? with
  | none => rfl
  | some n => simp [getN, List.getElem?_set_ne hne]

theorem getN_setParent_self {t : RedBlackTree} {i : Nat} {n : RBNode}
    (h : getN t i = some n) (q : Option Nat) :
    getN (setParent t i q) i = some { n with parent := q } := by
  rw [setParent]
  rw [getN] at h
  rw [h]
  simp [getN, List.getElem?_set_self (getN_lt_length (show getN t i = some n from h))]

theorem getN_setParent_ne {t : RedBlackTree} {i j : Nat} (hne : i ≠ j) (q : Option Nat) :
    getN (setParent t i q) j = getN t j := by
  rw [setParent]
  cases h : t.nodes[i]? with
  | none => rfl
  | some n => simp [getN, List.getElem?_set_ne hne]

theorem setParent_of_getN_none {t : RedBlackTree} {i : Nat}
    (h : getN t i = none) (q : Option Nat) : setParent t i q = t := by
  rw [setParent]
  rw [getN] at h
  rw [h]

theorem setColor_of_getN_none {t : RedBlackTree} {i : Nat}
    (h : getN t i = none) (q : Nat) : setColor t i q = t := by
  rw [setColor]
  rw [getN] at h
  rw [h]

theorem setLeft_of_getN_none {t : RedBlackTree} {i : Nat}
    (h : getN t i = none) (q : Option Nat) : setLeft t i q = t := by
  rw [setLeft]
  rw [getN] at h
  rw [h]

theorem setRight_of_getN_none {t : RedBlackTree} {i : Nat}
    (h : getN t i = none) (q : Option Nat) : setRight t i q = t := by
  rw [setRight]
  rw [getN] at h
  rw [h]

theorem getN_setColor_self {t : RedBlackTree} {i : Nat} {n : RBNode}
    (h : getN t i = some n) (q : Nat) :
    getN (setColor t i q) i = some { n with color := q } := by
  rw [setColor]
  rw [getN] at h
  rw [h]
  simp [getN, List.getElem?_set_self (getN_lt_length (show getN t i = some n from h))]

theorem getN_setColor_ne {t : RedBlackTree} {i j : Nat} (hne : i ≠ j) (q : Nat) :
    getN (setColor t i q) j = getN t j := by
  rw [setColor]
  cases h : t.nodes[i]? with
  | none => rfl
  | some n => simp [getN, List.getElem?_set_ne hne]

theorem shape_setParent (t : RedBlackTree) (i : Nat) (q : Option Nat) (j : Nat) :
    shape (setParent t i q) j = shape t j := by
  by_cases hij : i = j
  · subst hij
    cases h : getN t i with
    | none => rw [setParent_of_getN_none h]
    | some n =>
      rw [shape, getN_setParent_self h, shape, h]
      rfl
  · rw [shape, getN_setParent_ne hij, shape]

theorem shape_setColor (t : RedBlackTree) (i : Nat) (q : Nat) (j : Nat) :
    shape (setColor t i q) j = shape t j := by
  by_cases hij : i = j
  · subst hij
    cases h : getN t i with
    | none => rw [setColor_of_getN_none h]
    | some n =>
      rw [shape, getN_setColor_self h, shape, h]
      rfl
  · rw [shape, getN_setColor_ne hij, shape]

theorem colorOf_setParent (t : RedBlackTree) (i : Nat) (q : Option Nat) (j : Nat) :
    colorOf (setParent t i q) j = colorOf t j := by
  by_cases hij : i = j
  · subst hij
    cases h : getN t i with
    | none => rw [setParent_of_getN_none h]
    | some n =>
      rw [colorOf, getN_setParent_self h, colorOf, h]
      rfl
  · rw [colorOf, getN_setParent_ne hij, colorOf]

theorem colorOf_setLeft (t : RedBlackTree) (i : Nat) (q : Option Nat) (j : Nat) :
    colorOf (setLeft t i q) j = colorOf t j := by
  by_cases hij : i = j
  · subst hij
    cases h : getN t i with
    | none => rw [setLeft_of_getN_none h]
    | some n =>
      rw [colorOf, getN_setLeft_self h, colorOf, h]
      rfl
  · rw [colorOf, getN_setLeft_ne hij, colorOf]

theorem colorOf_setRight (t : RedBlackTree) (i : Nat) (q : Option Nat) (j : Nat) :
    colorOf (setRight t i q) j = colorOf t j := by
  by_cases hij : i = j
  · subst hij
    cases h : getN t i with
    | none => rw [setRight_of_getN_none h]
    | some n =>
      rw [colorOf, getN_setRight_self h, colorOf, h]
      rfl
  · rw [colorOf, getN_setRight_ne hij, colorOf]

theorem getN_rootUpd (t : RedBlackTree) (r : Option Nat) (j : Nat) :
    getN { t with root := r } j = getN t j := rfl

theorem colorOf_rootUpd (t : RedBlackTree) (r : Option Nat) (j : Nat) :
    colorOf { t with root := r } j = colorOf t j := rfl

theorem shape_rootUpd (t : RedBlackTree) (r : Option Nat) (j : Nat) :
    shape { t with root := r } j = shape t j := rfl

theorem root_setLeft (t : RedBlackTree) (i : Nat) (q : Option Nat) :
    (setLeft t i q).root = t.root := by
  rw [setLeft]; cases t.nodes[i]? <;> rfl

theorem root_setRight (t : RedBlackTree) (i : Nat) (q : Option Nat) :
    (setRight t i q).root = t.root := by
  rw [setRight]; cases t.nodes[i]? <;> rfl

theorem root_setParent (t : RedBlackTree) (i : Nat) (q : Option Nat) :
    (setParent t i q).root = t.root := by
  rw [setParent]; cases t.nodes[i]? <;> rfl

theorem length_setLeft (t : RedBlackTree) (i : Nat) (q : Option Nat) :
    (setLeft t i q).nodes.length = t.nodes.length := by
  rw [setLeft]; cases t.nodes[i]? <;> simp

theorem length_setRight (t : RedBlackTree) (i : Nat) (q : Option Nat) :
    (setRight t i q).nodes.length = t.nodes.length := by
  rw [setRight]; cases t.nodes[i]? <;> simp

theorem length_setParent (t : RedBlackTree) (i : Nat) (q : Option Nat) :
    (setParent t i q).nodes.length = t.nodes.length := by
  rw [setParent]; cases t.nodes[i]? <;> simp

/-! ### Traversal fuel and frame lemmas -/

theorem bind2_some_inv {α β γ : Type} {o1 : Option α} {o2 : Option β}
    {f : α → β → γ} {x : γ}
    (h : (do
        let a ← o1
        let b ← o2
        pure (f a b) : Option γ) = some x) :
    ∃ a b, o1 = some a ∧ o2 = some b ∧ x = f a b := by
  cases o1 with
  | none => simp at h
  | some a =>
    cases o2 with
    | none => simp at h
    | some b => exact ⟨a, b, rfl, rfl, by simpa using h.symm⟩

theorem inorderVals_some_inv {t : RedBlackTree} {f i : Nat} {n : RBNode} {xs : List Int}
    (hg : getN t i = some n) (h : inorderVals t (f + 1) (some i) = some xs) :
    ∃ L R, inorderVals t f n.left = some L ∧ inorderVals t f n.right = some R ∧
      xs = L ++ n.data :: R := by
  have he : inorderVals t (f + 1) (some i) =
      (do
        let L ← inorderVals t f n.left
        let R ← inorderVals t f n.right
        pure (L ++ n.data :: R) : Option (List Int)) := by
    simp [inorderVals, hg]
  rw [he] at h
  exact bind2_some_inv h

theorem reachL_some_inv {t : RedBlackTree} {f i : Nat} {n : RBNode} {ids : List Nat}
    (hg : getN t i = some n) (h : reachL t (f + 1) (some i) = some ids) :
    ∃ L R, reachL t f n.left = some L ∧ reachL t f n.right = some R ∧
      ids = i :: (L ++ R) := by
  have he : reachL t (f + 1) (some i) =
      (do
        let L ← reachL t f n.left
        let R ← reachL t f n.right
        pure (i :: (L ++ R)) : Option (List Nat)) := by
    simp [reachL, hg]
  rw [he] at h
  exact bind2_some_inv h

theorem inorderVals_mono (t : RedBlackTree) :
    ∀ f2 f o xs, f ≤ f2 → inorderVals t f o = some xs → inorderVals t f2 o = some xs := by
  intro f2
  induction f2 with
  | zero =>
    intro f o xs hle h
    have : f = 0 := Nat.le_zero.mp hle
    subst this
    simp [inorderVals] at h
  | succ k ih =>
    intro f o xs hle h
    cases f with
    | zero => simp [inorderVals] at h
    | succ f =>
      cases o with
      | none =>
        simp [inorderVals] at h
        simp [inorderVals, h]
      | some i =>
        cases hg : getN t i with
        | none => simp [inorderVals, hg] at h
        | some n =>
          obtain ⟨L, R, hL, hR, rfl⟩ := inorderVals_some_inv hg h
          have hL2 := ih f n.left L (Nat.le_of_succ_le_succ hle) hL
          have hR2 := ih f n.right R (Nat.le_of_succ_le_succ hle) hR
          simp [inorderVals, hg, hL2, hR2]

theorem reachL_mono (t : RedBlackTree) :
    ∀ f2 f o ids, f ≤ f2 → reachL t f o = some ids → reachL t f2 o = some ids := by
  intro f2
  induction f2 with
  | zero =>
    intro f o ids hle h
    have : f = 0 := Nat.le_zero.mp hle
    subst this
    simp [reachL] at h
  | succ k ih =>
    intro f o ids hle h
    cases f with
    | zero => simp [reachL] at h
    | succ f =>
      cases o with
      | none =>
        simp [reachL] at h
        simp [reachL, h]
      | some i =>
        cases hg : getN t i with
        | none => simp [reachL, hg] at h
        | some n =>
          obtain ⟨L, R, hL, hR, rfl⟩ := reachL_some_inv hg h
          have hL2 := ih f n.left L (Nat.le_of_succ_le_succ hle) hL
          have hR2 := ih f n.right R (Nat.le_of_succ_le_succ hle) hR
          simp [reachL, hg, hL2, hR2]

theorem inorderVals_shrink (t : RedBlackTree) :
    ∀ f o xs, inorderVals t f o = some xs →
      inorderVals t (xs.length + 1) o = some xs := by
  intro f
  induction f with
  | zero => intro o xs h; simp [inorderVals] at h
  | succ f ih =>
    intro o xs h
    cases o with
    | none =>
      simp [inorderVals] at h
      simp [inorderVals, h]
    | some i =>
      cases hg : getN t i with
      | none => simp [inorderVals, hg] at h
      | some n =>
        obtain ⟨L, R, hL, hR, rfl⟩ := inorderVals_some_inv hg h
        have hL2 := ih n.left L hL
        have hR2 := ih n.right R hR
        have hLlift : inorderVals t (L.length + (R.length + 1)) n.left = some L :=
          inorderVals_mono t _ _ _ _ (by omega) hL2
        have hRlift : inorderVals t (L.length + (R.length + 1)) n.right = some R :=
          inorderVals_mono t _ _ _ _ (by omega) hR2
        have hlen : (L ++ n.data :: R).length + 1 = (L.length + (R.length + 1)) + 1 := by
          simp
        rw [hlen]
        simp [inorderVals, hg, hLlift, hRlift]

theorem reachL_members (t : RedBlackTree) :
    ∀ f o ids, reachL t f o = some ids →
      ∀ i ∈ ids, ∃ n, getN t i = some n := by
  intro f
  induction f with
  | zero => intro o ids h; simp [reachL] at h
  | succ f ih =>
    intro o ids h
    cases o with
    | none =>
      simp [reachL] at h
      subst h
      intro i hi
      simp at hi
    | some i =>
      cases hg : getN t i with
      | none => simp [reachL, hg] at h
      | some n =>
        obtain ⟨L, R, hL, hR, rfl⟩ := reachL_some_inv hg h
        intro j hj
        rcases List.mem_cons.mp hj with rfl | hj2
        · exact ⟨n, hg⟩
        · rcases List.mem_append.mp hj2 with hjL | hjR
          · exact ih n.left L hL j hjL
          · exact ih n.right R hR j hjR

theorem reachL_inorder_length (t : RedBlackTree) :
    ∀ f o ids, reachL t f o = some ids →
      ∃ xs, inorderVals t f o = some xs ∧ xs.length = ids.length := by
  intro f
  induction f with
  | zero => intro o ids h; simp [reachL] at h
  | succ f ih =>
    intro o ids h
    cases o with
    | none =>
      simp [reachL] at h
      exact ⟨[], by simp [inorderVals], by simp [h]⟩
    | some i =>
      cases hg : getN t i with
      | none => simp [reachL, hg] at h
      | some n =>
        obtain ⟨L, R, hL, hR, rfl⟩ := reachL_some_inv hg h
        obtain ⟨xL, hxL, hlL⟩ := ih n.left L hL
        obtain ⟨xR, hxR, hlR⟩ := ih n.right R hR
        refine ⟨xL ++ n.data :: xR, by simp [inorderVals, hg, hxL, hxR], by simp [hlL, hlR]; omega⟩

theorem reachL_inorder_frame (t t2 : RedBlackTree) :
    ∀ fuel o ids, reachL t fuel o = some ids →
      (∀ i ∈ ids, shape t2 i = shape t i) →
      reachL t2 fuel o = some ids ∧
        inorderVals t2 fuel o = inorderVals t fuel o := by
  intro fuel
  induction fuel with
  | zero => intro o ids h _; simp [reachL] at h
  | succ f ih =>
    intro o ids h hsh
    cases o with
    | none =>
      simp [reachL] at h
      constructor
      · simp [reachL, h]
      · rfl
    | some i =>
      cases hg : getN t i with
      | none => simp [reachL, hg] at h
      | some n =>
        obtain ⟨L, R, hL, hR, rfl⟩ := reachL_some_inv hg h
        have hsi : shape t2 i = shape t i := hsh i (by simp)
        have hex : ∃ n2, getN t2 i = some n2 ∧ n2.data = n.data ∧
            n2.left = n.left ∧ n2.right = n.right := by
          rw [shape, shape, hg] at hsi
          cases hg2 : getN t2 i with
          | none => rw [hg2] at hsi; simp at hsi
          | some n2 =>
            rw [hg2] at hsi
            simp at hsi
            exact ⟨n2, rfl, hsi.1, hsi.2.1, hsi.2.2⟩
        obtain ⟨n2, hg2, hd, hl, hr⟩ := hex
        have ihL := ih n.left L hL (fun j hj =>
          hsh j (List.mem_cons_of_mem i (List.mem_append.mpr (Or.inl hj))))
        have ihR := ih n.right R hR (fun j hj =>
          hsh j (List.mem_cons_of_mem i (List.mem_append.mpr (Or.inr hj))))
        constructor
        · simp [reachL, hg2, hl, hr, ihL.1, ihR.1]
        · simp [inorderVals, hg2, hg, hl, hr, hd, ihL.2, ihR.2]

theorem reachL_pathdown (t : RedBlackTree) (g : Nat) :
    ∀ fuel o ids, PathDown t g o → reachL t fuel o = some ids →
      ∃ gids, reachL t fuel (some g) = some gids ∧ gids.Sublist ids := by
  intro fuel
  induction fuel with
  | zero => intro o ids hp h; simp [reachL] at h
  | succ f ih =>
    intro o ids hp h
    cases hp with
    | here => exact ⟨ids, h, List.Sublist.refl ids⟩
    | left hg hp2 =>
      rename_i i n
      obtain ⟨L, R, hL, hR, rfl⟩ := reachL_some_inv hg h
      obtain ⟨gids, hgids, hsub⟩ := ih n.left L hp2 hL
      refine ⟨gids, reachL_mono t _ _ _ _ (Nat.le_succ f) hgids, ?_⟩
      exact (hsub.trans (List.sublist_append_left L R)).trans (List.sublist_cons_self i (L ++ R))
    | right hg hp2 =>
      rename_i i n
      obtain ⟨L, R, hL, hR, rfl⟩ := reachL_some_inv hg h
      obtain ⟨gids, hgids, hsub⟩ := ih n.right R hp2 hR
      refine ⟨gids, reachL_mono t _ _ _ _ (Nat.le_succ f) hgids, ?_⟩
      exact (hsub.trans (List.sublist_append_right L R)).trans (List.sublist_cons_self i (L ++ R))

theorem reachL_unique {t : RedBlackTree} {f1 f2 : Nat} {o : Option Nat}
    {l1 l2 : List Nat} (h1 : reachL t f1 o = some l1) (h2 : reachL t f2 o = some l2) :
    l1 = l2 := by
  have h1b := reachL_mono t (f1 + f2) f1 o l1 (Nat.le_add_right f1 f2) h1
  have h2b := reachL_mono t (f1 + f2) f2 o l2 (Nat.le_add_left f2 f1) h2
  rw [h1b] at h2b
  exact Option.some.inj h2b

theorem inorderVals_unique {t : RedBlackTree} {f1 f2 : Nat} {o : Option Nat}
    {l1 l2 : List Int} (h1 : inorderVals t f1 o = some l1)
    (h2 : inorderVals t f2 o = some l2) : l1 = l2 := by
  have h1b := inorderVals_mono t (f1 + f2) f1 o l1 (Nat.le_add_right f1 f2) h1
  have h2b := inorderVals_mono t (f1 + f2) f2 o l2 (Nat.le_add_left f2 f1) h2
  rw [h1b] at h2b
  exact Option.some.inj h2b

theorem shape_some_inv {t t2 : RedBlackTree} {i : Nat} {n : RBNode}
    (hsi : shape t2 i = shape t i) (hg : getN t i = some n) :
    ∃ n2, getN t2 i = some n2 ∧ n2.data = n.data ∧
      n2.left = n.left ∧ n2.right = n.right := by
  rw [shape, shape, hg] at hsi
  cases hg2 : getN t2 i with
  | none => rw [hg2] at hsi; simp at hsi
  | some n2 =>
    rw [hg2] at hsi
    simp at hsi
    exact ⟨n2, rfl, hsi.1, hsi.2.1, hsi.2.2⟩

theorem reachL_child_mem {t : RedBlackTree} {f i x : Nat} {n : RBNode} {ids : List Nat}
    (h : reachL t f (some i) = some ids) (hg : getN t i = some n)
    (hx : n.left = some x ∨ n.right = some x) : x ∈ ids := by
  cases f with
  | zero => simp [reachL] at h
  | succ f =>
    obtain ⟨L, R, hL, hR, rfl⟩ := reachL_some_inv hg h
    rcases hx with hx | hx
    · rw [hx] at hL
      cases f with
      | zero => simp [reachL] at hL
      | succ f =>
        cases hgx : getN t x with
        | none => simp [reachL, hgx] at hL
        | some nx =>
          obtain ⟨XL, XR, _, _, rfl⟩ := reachL_some_inv hgx hL
          exact List.mem_cons_of_mem i (List.mem_append.mpr (Or.inl (by simp)))
    · rw [hx] at hR
      cases f with
      | zero => simp [reachL] at hR
      | succ f =>
        cases hgx : getN t x with
        | none => simp [reachL, hgx] at hR
        | some nx =>
          obtain ⟨XL, XR, _, _, rfl⟩ := reachL_some_inv hgx hR
          exact List.mem_cons_of_mem i (List.mem_append.mpr (Or.inr (by simp)))

/-- The in-order traversal only looks at the shapes of the nodes of
the (well-founded) subtree: if every node reachable in `t` from `o`
has the same shape in `t2`, the traversals agree at every fuel. -/
theorem inorder_frame2 (t t2 : RedBlackTree) :
    ∀ f o, (∃ f0 ids0, reachL t f0 o = some ids0 ∧
        ∀ i ∈ ids0, shape t2 i = shape t i) →
      inorderVals t2 f o = inorderVals t f o := by
  intro f
  induction f with
  | zero => intro o _; rfl
  | succ f ih =>
    intro o hex
    obtain ⟨f0, ids0, hr, hsh⟩ := hex
    cases o with
    | none => rfl
    | some i =>
      cases f0 with
      | zero => simp [reachL] at hr
      | succ f0 =>
        cases hg : getN t i with
        | none => simp [reachL, hg] at hr
        | some n =>
          obtain ⟨L, R, hL, hR, rfl⟩ := reachL_some_inv hg hr
          obtain ⟨n2, hg2, hd, hl, hr2⟩ := shape_some_inv (hsh i (by simp)) hg
          have ihL := ih n.left ⟨f0, L, hL, fun j hj =>
            hsh j (List.mem_cons_of_mem i (List.mem_append.mpr (Or.inl hj)))⟩
          have ihR := ih n.right ⟨f0, R, hR, fun j hj =>
            hsh j (List.mem_cons_of_mem i (List.mem_append.mpr (Or.inr hj)))⟩
          simp [inorderVals, hg, hg2, hd, hl, hr2, ihL, ihR]

/-- Context lifting: if the rewrite below `g` preserves the in-order
sequence of `g`'s subtree (with one extra fuel level) and changes
shapes only inside `g`'s subtree, then the in-order sequence of any
tree hanging from a link with a path down to `g` is preserved. -/
theorem inorder_ctx (t t2 : RedBlackTree) (g : Nat) (gids : List Nat)
    (hgreach : reachL t (t.nodes.length + 1) (some g) = some gids)
    (hchg : ∀ j, j ∉ gids → shape t2 j = shape t j)
    (hgstep : ∀ f xs, inorderVals t f (some g) = some xs →
        inorderVals t2 (f + 1) (some g) = some xs) :
    ∀ fuel o ids, reachL t fuel o = some ids → ids.Nodup → PathDown t g o →
      ∀ xs, inorderVals t fuel o = some xs → inorderVals t2 (fuel + 1) o = some xs := by
  intro fuel
  induction fuel with
  | zero => intro o ids h; simp [reachL] at h
  | succ f ih =>
    intro o ids hre hnd hp xs hio
    cases hp with
    | here => exact hgstep (f + 1) xs hio
    | left hg hp2 =>
      rename_i i n
      obtain ⟨L, R, hL, hR, rfl⟩ := reachL_some_inv hg hre
      obtain ⟨XL, XR, hXL, hXR, rfl⟩ := inorderVals_some_inv hg hio
      have hnd2 := List.nodup_cons.mp hnd
      have hndLR := List.nodup_append.mp hnd2.2
      obtain ⟨gids2, hgids2, hsubL⟩ := reachL_pathdown t g f n.left L hp2 hL
      have hgeq : gids2 = gids := reachL_unique hgids2 hgreach
      subst hgeq
      have hin : i ∉ gids2 := fun hmem =>
        hnd2.1 (List.mem_append.mpr (Or.inl (hsubL.subset hmem)))
      obtain ⟨n2, hg2, hd, hl, hr2⟩ := shape_some_inv (hchg i hin) hg
      have ihL := ih n.left L hL hndLR.1 hp2 XL hXL
      have hXR2 : inorderVals t (f + 1) n.right = some XR :=
        inorderVals_mono t (f + 1) f n.right XR (Nat.le_succ f) hXR
      have hfr : inorderVals t2 (f + 1) n.right = inorderVals t (f + 1) n.right :=
        inorder_frame2 t t2 (f + 1) n.right ⟨f, R, hR, fun j hj =>
          hchg j (fun hmem => hndLR.2.2 (hsubL.subset hmem) hj)⟩
      simp [inorderVals, hg2, hl, hr2, hd, ihL, hfr, hXR2]
    | right hg hp2 =>
      rename_i i n
      obtain ⟨L, R, hL, hR, rfl⟩ := reachL_some_inv hg hre
      obtain ⟨XL, XR, hXL, hXR, rfl⟩ := inorderVals_some_inv hg hio
      have hnd2 := List.nodup_cons.mp hnd
      have hndLR := List.nodup_append.mp hnd2.2
      obtain ⟨gids2, hgids2, hsubR⟩ := reachL_pathdown t g f n.right R hp2 hR
      have hgeq : gids2 = gids := reachL_unique hgids2 hgreach
      subst hgeq
      have hin : i ∉ gids2 := fun hmem =>
        hnd2.1 (List.mem_append.mpr (Or.inr (hsubR.subset hmem)))
      obtain ⟨n2, hg2, hd, hl, hr2⟩ := shape_some_inv (hchg i hin) hg
      have ihR := ih n.right R hR hndLR.2.1 hp2 XR hXR
      have hXL2 : inorderVals t (f + 1) n.left = some XL :=
        inorderVals_mono t (f + 1) f n.left XL (Nat.le_succ f) hXL
      have hfr : inorderVals t2 (f + 1) n.left = inorderVals t (f + 1) n.left :=
        inorder_frame2 t t2 (f + 1) n.left ⟨f, L, hL, fun j hj =>
          hchg j (fun hmem => hndLR.2.2 hj (hsubR.subset hmem))⟩
      simp [inorderVals, hg2, hl, hr2, hd, ihR, hfr, hXL2]

/-- Local in-order preservation of a left rotation: with `c` the right
child of `p`, if in `t2` node `p` keeps its data and left child but
its right child is now `c`'s old left child (the middle subtree), and
node `c` keeps its data and right child with `p` as its new left
child, while every other node keeps its shape, then the in-order
sequence of the new subtree rooted at `c` equals that of the old
subtree rooted at `p`. -/
theorem inorder_local_left (t t2 : RedBlackTree) (p c : Nat) (cn pn pn2 cn2 : RBNode)
    (hcn : getN t c = some cn) (hpn : getN t p = some pn) (hdir : pn.right = some c)
    (hg2p : getN t2 p = some pn2) (hpd : pn2.data = pn.data)
    (hpl : pn2.left = pn.left) (hpr : pn2.right = cn.left)
    (hg2c : getN t2 c = some cn2) (hcd : cn2.data = cn.data)
    (hcl : cn2.left = some p) (hcr : cn2.right = cn.right)
    (F : Nat) (pids : List Nat)
    (hpreach : reachL t F (some p) = some pids) (hnd : pids.Nodup)
    (hshape : ∀ j, j ≠ p → j ≠ c → j ∈ pids → shape t2 j = shape t j) :
    ∀ f xs, inorderVals t f (some p) = some xs →
      inorderVals t2 (f + 1) (some c) = some xs := by
  intro f xs hio
  cases F with
  | zero => simp [reachL] at hpreach
  | succ F =>
  obtain ⟨PL, PR, hPL, hPR, hpids⟩ := reachL_some_inv hpn hpreach
  subst hpids
  rw [hdir] at hPR
  cases F with
  | zero => simp [reachL] at hPR
  | succ F =>
  obtain ⟨CL, CR, hCL, hCR, hPReq⟩ := reachL_some_inv hcn hPR
  subst hPReq
  have hndp := List.nodup_cons.mp hnd
  have hndLR := List.nodup_append.mp hndp.2
  have hndc := List.nodup_cons.mp hndLR.2.1
  have hshPL : ∀ j ∈ PL, shape t2 j = shape t j := by
    intro j hj
    apply hshape
    · intro he
      subst he
      exact hndp.1 (List.mem_append.mpr (Or.inl hj))
    · intro he
      exact hndLR.2.2 hj (by rw [he]; exact List.mem_cons_self _ _)
    · exact List.mem_cons_of_mem p (List.mem_append.mpr (Or.inl hj))
  have hshCL : ∀ j ∈ CL, shape t2 j = shape t j := by
    intro j hj
    apply hshape
    · intro he
      subst he
      exact hndp.1 (List.mem_append.mpr (Or.inr
        (List.mem_cons_of_mem c (List.mem_append.mpr (Or.inl hj)))))
    · intro he
      subst he
      exact hndc.1 (List.mem_append.mpr (Or.inl hj))
    · exact List.mem_cons_of_mem p (List.mem_append.mpr (Or.inr
        (List.mem_cons_of_mem c (List.mem_append.mpr (Or.inl hj)))))
  have hshCR : ∀ j ∈ CR, shape t2 j = shape t j := by
    intro j hj
    apply hshape
    · intro he
      subst he
      exact hndp.1 (List.mem_append.mpr (Or.inr
        (List.mem_cons_of_mem c (List.mem_append.mpr (Or.inr hj)))))
    · intro he
      subst he
      exact hndc.1 (List.mem_append.mpr (Or.inr hj))
    · exact List.mem_cons_of_mem p (List.mem_append.mpr (Or.inr
        (List.mem_cons_of_mem c (List.mem_append.mpr (Or.inr hj)))))
  cases f with
  | zero => simp [inorderVals] at hio
  | succ f1 =>
  obtain ⟨XL, XR1, hXL, hXR1, hxs⟩ := inorderVals_some_inv hpn hio
  subst hxs
  rw [hdir] at hXR1
  cases f1 with
  | zero => simp [inorderVals] at hXR1
  | succ f2 =>
  obtain ⟨M, RC, hM, hRC, hXR1eq⟩ := inorderVals_some_inv hcn hXR1
  subst hXR1eq
  have hlp2 : inorderVals t2 (f2 + 1) pn.left = some XL := by
    rw [inorder_frame2 t t2 (f2 + 1) pn.left ⟨F + 1, PL, hPL, hshPL⟩]
    exact hXL
  have hm2 : inorderVals t2 (f2 + 1) cn.left = some M := by
    rw [inorder_frame2 t t2 (f2 + 1) cn.left ⟨F, CL, hCL, hshCL⟩]
    exact inorderVals_mono t (f2 + 1) f2 cn.left M (Nat.le_succ f2) hM
  have hrc2 : inorderVals t2 (f2 + 2) cn.right = some RC := by
    rw [inorder_frame2 t t2 (f2 + 2) cn.right ⟨F, CR, hCR, hshCR⟩]
    exact inorderVals_mono t (f2 + 2) f2 cn.right RC (by omega) hRC
  have hp2 : inorderVals t2 (f2 + 2) (some p) = some (XL ++ pn2.data :: M) := by
    simp [inorderVals, hg2p, hpl, hpr, hlp2, hm2]
  show inorderVals t2 (f2 + 2 + 1) (some c) = some (XL ++ pn.data :: (M ++ cn.data :: RC))
  simp [inorderVals, hg2c, hcl, hcr, hcd, hp2, hrc2, hpd]

/-- Local in-order preservation of a right rotation: the mirror of
`inorder_local_left`, with `c` the left child of `p`. -/
theorem inorder_local_right (t t2 : RedBlackTree) (p c : Nat) (cn pn pn2 cn2 : RBNode)
    (hcn : getN t c = some cn) (hpn : getN t p = some pn) (hdir : pn.left = some c)
    (hg2p : getN t2 p = some pn2) (hpd : pn2.data = pn.data)
    (hpl : pn2.left = cn.right) (hpr : pn2.right = pn.right)
    (hg2c : getN t2 c = some cn2) (hcd : cn2.data = cn.data)
    (hcl : cn2.left = cn.left) (hcr : cn2.right = some p)
    (F : Nat) (pids : List Nat)
    (hpreach : reachL t F (some p) = some pids) (hnd : pids.Nodup)
    (hshape : ∀ j, j ≠ p → j ≠ c → j ∈ pids → shape t2 j = shape t j) :
    ∀ f xs, inorderVals t f (some p) = some xs →
      inorderVals t2 (f + 1) (some c) = some xs := by
  intro f xs hio
  cases F with
  | zero => simp [reachL] at hpreach
  | succ F =>
  obtain ⟨PL, PR, hPL, hPR, hpids⟩ := reachL_some_inv hpn hpreach
  subst hpids
  rw [hdir] at hPL
  cases F with
  | zero => simp [reachL] at hPL
  | succ F =>
  obtain ⟨CL, CR, hCL, hCR, hPLeq⟩ := reachL_some_inv hcn hPL
  subst hPLeq
  have hndp := List.nodup_cons.mp hnd
  have hndLR := List.nodup_append.mp hndp.2
  have hndc := List.nodup_cons.mp hndLR.1
  have hshPR : ∀ j ∈ PR, shape t2 j = shape t j := by
    intro j hj
    apply hshape
    · intro he
      subst he
      exact hndp.1 (List.mem_append.mpr (Or.inr hj))
    · intro he
      exact hndLR.2.2 (by rw [he]; exact List.mem_cons_self _ _) hj
    · exact List.mem_cons_of_mem p (List.mem_append.mpr (Or.inr hj))
  have hshCL : ∀ j ∈ CL, shape t2 j = shape t j := by
    intro j hj
    apply hshape
    · intro he
      subst he
      exact hndp.1 (List.mem_append.mpr (Or.inl
        (List.mem_cons_of_mem c (List.mem_append.mpr (Or.inl hj)))))
    · intro he
      subst he
      exact hndc.1 (List.mem_append.mpr (Or.inl hj))
    · exact List.mem_cons_of_mem p (List.mem_append.mpr (Or.inl
        (List.mem_cons_of_mem c (List.mem_append.mpr (Or.inl hj)))))
  have hshCR : ∀ j ∈ CR, shape t2 j = shape t j := by
    intro j hj
    apply hshape
    · intro he
      subst he
      exact hndp.1 (List.mem_append.mpr (Or.inl
        (List.mem_cons_of_mem c (List.mem_append.mpr (Or.inr hj)))))
    · intro he
      subst he
      exact hndc.1 (List.mem_append.mpr (Or.inr hj))
    · exact List.mem_cons_of_mem p (List.mem_append.mpr (Or.inl
        (List.mem_cons_of_mem c (List.mem_append.mpr (Or.inr hj)))))
  cases f with
  | zero => simp [inorderVals] at hio
  | succ f1 =>
  obtain ⟨XL1, XR, hXL1, hXR, hxs⟩ := inorderVals_some_inv hpn hio
  subst hxs
  rw [hdir] at hXL1
  cases f1 with
  | zero => simp [inorderVals] at hXL1
  | succ f2 =>
  obtain ⟨CLv, M, hCLv, hM, hXL1eq⟩ := inorderVals_some_inv hcn hXL1
  subst hXL1eq
  have hcl2 : inorderVals t2 (f2 + 2) cn.left = some CLv := by
    rw [inorder_frame2 t t2 (f2 + 2) cn.left ⟨F, CL, hCL, hshCL⟩]
    exact inorderVals_mono t (f2 + 2) f2 cn.left CLv (by omega) hCLv
  have hm2 : inorderVals t2 (f2 + 1) cn.right = some M := by
    rw [inorder_frame2 t t2 (f2 + 1) cn.right ⟨F, CR, hCR, hshCR⟩]
    exact inorderVals_mono t (f2 + 1) f2 cn.right M (Nat.le_succ f2) hM
  have hrp2 : inorderVals t2 (f2 + 1) pn.right = some XR := by
    rw [inorder_frame2 t t2 (f2 + 1) pn.right ⟨F + 1, PR, hPR, hshPR⟩]
    exact hXR
  have hp2 : inorderVals t2 (f2 + 2) (some p) = some (M ++ pn2.data :: XR) := by
    simp [inorderVals, hg2p, hpl, hpr, hm2, hrp2]
  show inorderVals t2 (f2 + 2 + 1) (some c) =
    some ((CLv ++ cn.data :: M) ++ pn.data :: XR)
  simp [inorderVals, hg2c, hcl, hcr, hcd, hp2, hcl2, hpd]

theorem shape_setLeft_ne {t : RedBlackTree} {i j : Nat} (hne : i ≠ j) (q : Option Nat) :
    shape (setLeft t i q) j = shape t j := by
  rw [shape, getN_setLeft_ne hne, shape]

theorem shape_setRight_ne {t : RedBlackTree} {i j : Nat} (hne : i ≠ j) (q : Option Nat) :
    shape (setRight t i q) j = shape t j := by
  rw [shape, getN_setRight_ne hne, shape]

theorem nodup_bounded_length {l : List Nat} {n : Nat} (hnd : l.Nodup)
    (hb : ∀ i ∈ l, i < n) : l.length ≤ n := by
  classical
  have h1 : l.toFinset.card = l.length := List.toFinset_card_of_nodup hnd
  have h2 : l.toFinset ⊆ Finset.range n := by
    intro i hi
    rw [List.mem_toFinset] at hi
    exact Finset.mem_range.mpr (hb i hi)
  have h3 := Finset.card_le_card h2
  rw [h1, Finset.card_range] at h3
  exact h3

theorem inorder_of_big (t2 : RedBlackTree) (o : Option Nat) (F : Nat) (xs : List Int)
    (h : inorderVals t2 F o = some xs) (hro : t2.root = o)
    (hlen : xs.length ≤ t2.nodes.length) : inorder t2 = some xs := by
  rw [inorder, hro]
  exact inorderVals_mono t2 _ _ _ _ (by omega) (inorderVals_shrink t2 F o xs h)

theorem inorder_length_bound (t : RedBlackTree) (o : Option Nat) (F F2 : Nat)
    (ids : List Nat) (xs : List Int)
    (hre : reachL t F o = some ids) (hnd : ids.Nodup)
    (hio : inorderVals t F2 o = some xs) : xs.length ≤ t.nodes.length := by
  obtain ⟨xs2, hxs2, hlen⟩ := reachL_inorder_length t F o ids hre
  obtain rfl : xs2 = xs := inorderVals_unique hxs2 hio
  rw [hlen]
  apply nodup_bounded_length hnd
  intro i hi
  obtain ⟨n, hn⟩ := reachL_members t F o ids hre i hi
  exact getN_lt_length hn

theorem frame_mono (t t2 : RedBlackTree) (o : Option Nat) (F0 : Nat) (ids0 : List Nat)
    (hre : reachL t F0 o = some ids0)
    (hsh : ∀ i ∈ ids0, shape t2 i = shape t i) (f f2 : Nat) (hle : f ≤ f2)
    (xs : List Int) (hio : inorderVals t f o = some xs) :
    inorderVals t2 f2 o = some xs := by
  rw [inorder_frame2 t t2 f2 o ⟨F0, ids0, hre, hsh⟩]
  exact inorderVals_mono t f2 f o xs hle hio

theorem rotation_noop (t : RedBlackTree) (c : Nat) (cn : RBNode)
    (hcn : getN t c = some cn) (hp : cn.parent = none) :
    rotation t c = some t := by
  simp only [rotation, Option.bind_eq_bind, Option.some_bind, hcn, hp]

theorem rotation_left_nonroot
    (t : RedBlackTree) (c p g : Nat) (cn pn gn : RBNode)
    (hcn : getN t c = some cn) (hp : cn.parent = some p)
    (hpn : getN t p = some pn) (hdir : pn.right = some c)
    (hnroot : t.root ≠ some p)
    (hgp : pn.parent = some g) (hgn : getN t g = some gn)
    (hpc : p ≠ c) (hgp2 : g ≠ p) (hgc : g ≠ c)
    (hmsep : ∀ m, cn.left = some m → m ≠ p ∧ m ≠ c ∧ m ≠ g) :
    ∃ t2, rotation t c = some t2 ∧
      t2.root = t.root ∧
      t2.nodes.length = t.nodes.length ∧
      getN t2 p = some { pn with right := cn.left, parent := some c } ∧
      getN t2 c = some { cn with left := some p, parent := some g } ∧
      getN t2 g = some (if gn.left = some p then { gn with left := some c }
        else { gn with right := some c }) ∧
      (∀ m mn, cn.left = some m → getN t m = some mn →
        getN t2 m = some { mn with parent := some p }) ∧
      (∀ j, j ≠ p → j ≠ c → j ≠ g → (∀ m, cn.left = some m → j ≠ m) →
        getN t2 j = getN t j) ∧
      (∀ j, colorOf t2 j = colorOf t j) ∧
      (∀ j, j ≠ p → j ≠ c → j ≠ g → shape t2 j = shape t j) := by
  cases hml : cn.left with
  | none =>
    have hb_p : getN (setRight t p none) p = some { pn with right := none } :=
      getN_setRight_self hpn none
    have hb_g : getN (setRight t p none) g = some gn := by
      rw [getN_setRight_ne (Ne.symm hgp2), hgn]
    have hb_c : getN (setRight t p none) c = some cn := by
      rw [getN_setRight_ne hpc, hcn]
    by_cases hslot : gn.left = some p
    · refine ⟨setParent (setLeft (setParent (setLeft (setRight t p none) g (some c))
        c (some g)) c (some p)) p (some c), ?_, ?_, ?_, ?_, ?_, ?_, ?_, ?_, ?_, ?_⟩
      · simp only [rotation, Option.bind_eq_bind, Option.some_bind, hcn, hp, hpn, hdir,
          hml, root_setRight, hnroot, if_false, ite_false, hb_p, hgp, hb_g, hslot,
          if_true, ite_true]
      · simp [root_setParent, root_setLeft, root_setRight]
      · simp [length_setParent, length_setLeft, length_setRight]
      · rw [getN_setParent_self (n := { pn with right := none })]
        rw [getN_setLeft_ne (Ne.symm hpc), getN_setParent_ne (Ne.symm hpc),
          getN_setLeft_ne hgp2, hb_p]
      · rw [getN_setParent_ne hpc, getN_setLeft_self (n := { cn with parent := some g })]
        rw [getN_setParent_self (n := cn)]
        rw [getN_setLeft_ne hgc, hb_c]
      · rw [if_pos hslot]
        rw [getN_setParent_ne (Ne.symm hgp2), getN_setLeft_ne (Ne.symm hgc),
          getN_setParent_ne (Ne.symm hgc), getN_setLeft_self (n := gn)]
        rw [getN_setRight_ne (Ne.symm hgp2), hgn]
      · intro m mn hmm
        exact absurd hmm (by simp)
      · intro j hjp hjc hjg _
        rw [getN_setParent_ne (Ne.symm hjp), getN_setLeft_ne (Ne.symm hjc),
          getN_setParent_ne (Ne.symm hjc), getN_setLeft_ne (Ne.symm hjg),
          getN_setRight_ne (Ne.symm hjp)]
      · intro j
        simp [colorOf_setParent, colorOf_setLeft, colorOf_setRight]
      · intro j hjp hjc hjg
        rw [shape_setParent, shape_setLeft_ne (Ne.symm hjc), shape_setParent,
          shape_setLeft_ne (Ne.symm hjg), shape_setRight_ne (Ne.symm hjp)]
    · refine ⟨setParent (setLeft (setParent (setRight (setRight t p none) g (some c))
        c (some g)) c (some p)) p (some c), ?_, ?_, ?_, ?_, ?_, ?_, ?_, ?_, ?_, ?_⟩
      · simp only [rotation, Option.bind_eq_bind, Option.some_bind, hcn, hp, hpn, hdir,
          hml, root_setRight, hnroot, if_false, ite_false, hb_p, hgp, hb_g, hslot,
          if_true, ite_true]
      · simp [root_setParent, root_setLeft, root_setRight]
      · simp [length_setParent, length_setLeft, length_setRight]
      · rw [getN_setParent_self (n := { pn with right := none })]
        rw [getN_setLeft_ne (Ne.symm hpc), getN_setParent_ne (Ne.symm hpc),
          getN_setRight_ne hgp2, hb_p]
      · rw [getN_setParent_ne hpc, getN_setLeft_self (n := { cn with parent := some g })]
        rw [getN_setParent_self (n := cn)]
        rw [getN_setRight_ne hgc, hb_c]
      · rw [if_neg hslot]
        rw [getN_setParent_ne (Ne.symm hgp2), getN_setLeft_ne (Ne.symm hgc),
          getN_setParent_ne (Ne.symm hgc), getN_setRight_self (n := gn)]
        rw [getN_setRight_ne (Ne.symm hgp2), hgn]
      · intro m mn hmm
        exact absurd hmm (by simp)
      · intro j hjp hjc hjg _
        rw [getN_setParent_ne (Ne.symm hjp), getN_setLeft_ne (Ne.symm hjc),
          getN_setParent_ne (Ne.symm hjc), getN_setRight_ne (Ne.symm hjg),
          getN_setRight_ne (Ne.symm hjp)]
      · intro j
        simp [colorOf_setParent, colorOf_setLeft, colorOf_setRight]
      · intro j hjp hjc hjg
        rw [shape_setParent, shape_setLeft_ne (Ne.symm hjc), shape_setParent,
          shape_setRight_ne (Ne.symm hjg), shape_setRight_ne (Ne.symm hjp)]
  | some m =>
    obtain ⟨hmp, hmc, hmg⟩ := hmsep m hml
    have hb_p : getN (setParent (setRight t p (some m)) m (some p)) p =
        some { pn with right := some m } := by
      rw [getN_setParent_ne hmp, getN_setRight_self hpn]
    have hb_g : getN (setParent (setRight t p (some m)) m (some p)) g = some gn := by
      rw [getN_setParent_ne hmg, getN_setRight_ne (Ne.symm hgp2), hgn]
    have hb_c : getN (setParent (setRight t p (some m)) m (some p)) c = some cn := by
      rw [getN_setParent_ne hmc, getN_setRight_ne hpc, hcn]
    by_cases hslot : gn.left = some p
    · refine ⟨setParent (setLeft (setParent (setLeft (setParent (setRight t p (some m))
        m (some p)) g (some c)) c (some g)) c (some p)) p (some c),
        ?_, ?_, ?_, ?_, ?_, ?_, ?_, ?_, ?_, ?_⟩
      · simp only [rotation, Option.bind_eq_bind, Option.some_bind, hcn, hp, hpn, hdir,
          hml, root_setRight, root_setParent, hnroot, if_false, ite_false, hb_p, hgp,
          hb_g, hslot, if_true, ite_true]
      · simp [root_setParent, root_setLeft, root_setRight]
      · simp [length_setParent, length_setLeft, length_setRight]
      · rw [getN_setParent_self (n := { pn with right := some m })]
        rw [getN_setLeft_ne (Ne.symm hpc), getN_setParent_ne (Ne.symm hpc),
          getN_setLeft_ne hgp2, hb_p]
      · rw [getN_setParent_ne hpc, getN_setLeft_self (n := { cn with parent := some g })]
        rw [getN_setParent_self (n := cn)]
        rw [getN_setLeft_ne hgc, hb_c]
      · rw [if_pos hslot]
        rw [getN_setParent_ne (Ne.symm hgp2), getN_setLeft_ne (Ne.symm hgc),
          getN_setParent_ne (Ne.symm hgc), getN_setLeft_self (n := gn)]
        rw [hb_g]
      · intro m2 mn hmm hmn
        obtain rfl : m = m2 := Option.some.inj hmm
        rw [getN_setParent_ne (Ne.symm hmp), getN_setLeft_ne (Ne.symm hmc),
          getN_setParent_ne (Ne.symm hmc), getN_setLeft_ne (Ne.symm hmg),
          getN_setParent_self (n := mn)]
        rw [getN_setRight_ne (Ne.symm hmp), hmn]
      · intro j hjp hjc hjg hjm
        have hjm2 : j ≠ m := hjm m rfl
        rw [getN_setParent_ne (Ne.symm hjp), getN_setLeft_ne (Ne.symm hjc),
          getN_setParent_ne (Ne.symm hjc), getN_setLeft_ne (Ne.symm hjg),
          getN_setParent_ne (Ne.symm hjm2), getN_setRight_ne (Ne.symm hjp)]
      · intro j
        simp [colorOf_setParent, colorOf_setLeft, colorOf_setRight]
      · intro j hjp hjc hjg
        rw [shape_setParent, shape_setLeft_ne (Ne.symm hjc), shape_setParent,
          shape_setLeft_ne (Ne.symm hjg), shape_setParent, shape_setRight_ne (Ne.symm hjp)]
    · refine ⟨setParent (setLeft (setParent (setRight (setParent (setRight t p (some m))
        m (some p)) g (some c)) c (some g)) c (some p)) p (some c),
        ?_, ?_, ?_, ?_, ?_, ?_, ?_, ?_, ?_, ?_⟩
      · simp only [rotation, Option.bind_eq_bind, Option.some_bind, hcn, hp, hpn, hdir,
          hml, root_setRight, root_setParent, hnroot, if_false, ite_false, hb_p, hgp,
          hb_g, hslot, if_true, ite_true]
      · simp [root_setParent, root_setLeft, root_setRight]
      · simp [length_setParent, length_setLeft, length_setRight]
      · rw [getN_setParent_self (n := { pn with right := some m })]
        rw [getN_setLeft_ne (Ne.symm hpc), getN_setParent_ne (Ne.symm hpc),
          getN_setRight_ne hgp2, hb_p]
      · rw [getN_setParent_ne hpc, getN_setLeft_self (n := { cn with parent := some g })]
        rw [getN_setParent_self (n := cn)]
        rw [getN_setRight_ne hgc, hb_c]
      · rw [if_neg hslot]
        rw [getN_setParent_ne (Ne.symm hgp2), getN_setLeft_ne (Ne.symm hgc),
          getN_setParent_ne (Ne.symm hgc), getN_setRight_self (n := gn)]
        rw [hb_g]
      · intro m2 mn hmm hmn
        obtain rfl : m = m2 := Option.some.inj hmm
        rw [getN_setParent_ne (Ne.symm hmp), getN_setLeft_ne (Ne.symm hmc),
          getN_setParent_ne (Ne.symm hmc), getN_setRight_ne (Ne.symm hmg),
          getN_setParent_self (n := mn)]
        rw [getN_setRight_ne (Ne.symm hmp), hmn]
      · intro j hjp hjc hjg hjm
        have hjm2 : j ≠ m := hjm m rfl
        rw [getN_setParent_ne (Ne.symm hjp), getN_setLeft_ne (Ne.symm hjc),
          getN_setParent_ne (Ne.symm hjc), getN_setRight_ne (Ne.symm hjg),
          getN_setParent_ne (Ne.symm hjm2), getN_setRight_ne (Ne.symm hjp)]
      · intro j
        simp [colorOf_setParent, colorOf_setLeft, colorOf_setRight]
      · intro j hjp hjc hjg
        rw [shape_setParent, shape_setLeft_ne (Ne.symm hjc), shape_setParent,
          shape_setRight_ne (Ne.symm hjg), shape_setParent, shape_setRight_ne (Ne.symm hjp)]

theorem rotation_right_nonroot
    (t : RedBlackTree) (c p g : Nat) (cn pn gn : RBNode)
    (hcn : getN t c = some cn) (hp : cn.parent = some p)
    (hpn : getN t p = some pn) (hdirn : pn.right ≠ some c) (hdir : pn.left = some c)
    (hnroot : t.root ≠ some p)
    (hgp : pn.parent = some g) (hgn : getN t g = some gn)
    (hpc : p ≠ c) (hgp2 : g ≠ p) (hgc : g ≠ c)
    (hmsep : ∀ m, cn.right = some m → m ≠ p ∧ m ≠ c ∧ m ≠ g) :
    ∃ t2, rotation t c = some t2 ∧
      t2.root = t.root ∧
      t2.nodes.length = t.nodes.length ∧
      getN t2 p = some { pn with left := cn.right, parent := some c } ∧
      getN t2 c = some { cn with right := some p, parent := some g } ∧
      getN t2 g = some (if gn.left = some p then { gn with left := some c }
        else { gn with right := some c }) ∧
      (∀ m mn, cn.right = some m → getN t m = some mn →
        getN t2 m = some { mn with parent := some p }) ∧
      (∀ j, j ≠ p → j ≠ c → j ≠ g → (∀ m, cn.right = some m → j ≠ m) →
        getN t2 j = getN t j) ∧
      (∀ j, colorOf t2 j = colorOf t j) ∧
      (∀ j, j ≠ p → j ≠ c → j ≠ g → shape t2 j = shape t j) := by
  cases hmr : cn.right with
  | none =>
    have hb_p : getN (setLeft t p none) p = some { pn with left := none } :=
      getN_setLeft_self hpn none
    have hb_g : getN (setLeft t p none) g = some gn := by
      rw [getN_setLeft_ne (Ne.symm hgp2), hgn]
    have hb_c : getN (setLeft t p none) c = some cn := by
      rw [getN_setLeft_ne hpc, hcn]
    by_cases hslot : gn.left = some p
    · refine ⟨setParent (setRight (setParent (setLeft (setLeft t p none) g (some c))
        c (some g)) c (some p)) p (some c), ?_, ?_, ?_, ?_, ?_, ?_, ?_, ?_, ?_, ?_⟩
      · simp only [rotation, Option.bind_eq_bind, Option.some_bind, hcn, hp, hpn, hdirn,
          hmr, root_setLeft, hnroot, if_false, ite_false, hb_p, hgp, hb_g, hslot,
          if_true, ite_true]
      · simp [root_setParent, root_setLeft, root_setRight]
      · simp [length_setParent, length_setLeft, length_setRight]
      · rw [getN_setParent_self (n := { pn with left := none })]
        rw [getN_setRight_ne (Ne.symm hpc), getN_setParent_ne (Ne.symm hpc),
          getN_setLeft_ne hgp2, hb_p]
      · rw [getN_setParent_ne hpc, getN_setRight_self (n := { cn with parent := some g })]
        rw [getN_setParent_self (n := cn)]
        rw [getN_setLeft_ne hgc, hb_c]
      · rw [if_pos hslot]
        rw [getN_setParent_ne (Ne.symm hgp2), getN_setRight_ne (Ne.symm hgc),
          getN_setParent_ne (Ne.symm hgc), getN_setLeft_self (n := gn)]
        rw [hb_g]
      · intro m mn hmm
        exact absurd hmm (by simp)
      · intro j hjp hjc hjg _
        rw [getN_setParent_ne (Ne.symm hjp), getN_setRight_ne (Ne.symm hjc),
          getN_setParent_ne (Ne.symm hjc), getN_setLeft_ne (Ne.symm hjg),
          getN_setLeft_ne (Ne.symm hjp)]
      · intro j
        simp [colorOf_setParent, colorOf_setLeft, colorOf_setRight]
      · intro j hjp hjc hjg
        rw [shape_setParent, shape_setRight_ne (Ne.symm hjc), shape_setParent,
          shape_setLeft_ne (Ne.symm hjg), shape_setLeft_ne (Ne.symm hjp)]
    · refine ⟨setParent (setRight (setParent (setRight (setLeft t p none) g (some c))
        c (some g)) c (some p)) p (some c), ?_, ?_, ?_, ?_, ?_, ?_, ?_, ?_, ?_, ?_⟩
      · simp only [rotation, Option.bind_eq_bind, Option.some_bind, hcn, hp, hpn, hdirn,
          hmr, root_setLeft, hnroot, if_false, ite_false, hb_p, hgp, hb_g, hslot,
          if_true, ite_true]
      · simp [root_setParent, root_setLeft, root_setRight]
      · simp [length_setParent, length_setLeft, length_setRight]
      · rw [getN_setParent_self (n := { pn with left := none })]
        rw [getN_setRight_ne (Ne.symm hpc), getN_setParent_ne (Ne.symm hpc),
          getN_setRight_ne hgp2, hb_p]
      · rw [getN_setParent_ne hpc, getN_setRight_self (n := { cn with parent := some g })]
        rw [getN_setParent_self (n := cn)]
        rw [getN_setRight_ne hgc, hb_c]
      · rw [if_neg hslot]
        rw [getN_setParent_ne (Ne.symm hgp2), getN_setRight_ne (Ne.symm hgc),
          getN_setParent_ne (Ne.symm hgc), getN_setRight_self (n := gn)]
        rw [hb_g]
      · intro m mn hmm
        exact absurd hmm (by simp)
      · intro j hjp hjc hjg _
        rw [getN_setParent_ne (Ne.symm hjp), getN_setRight_ne (Ne.symm hjc),
          getN_setParent_ne (Ne.symm hjc), getN_setRight_ne (Ne.symm hjg),
          getN_setLeft_ne (Ne.symm hjp)]
      · intro j
        simp [colorOf_setParent, colorOf_setLeft, colorOf_setRight]
      · intro j hjp hjc hjg
        rw [shape_setParent, shape_setRight_ne (Ne.symm hjc), shape_setParent,
          shape_setRight_ne (Ne.symm hjg), shape_setLeft_ne (Ne.symm hjp)]
  | some m =>
    obtain ⟨hmp, hmc, hmg⟩ := hmsep m hmr
    have hb_p : getN (setParent (setParent (setLeft t p (some m)) m (some p)) c none) p =
        some { pn with left := some m } := by
      rw [getN_setParent_ne (Ne.symm hpc), getN_setParent_ne hmp, getN_setLeft_self hpn]
    have hb_g : getN (setParent (setParent (setLeft t p (some m)) m (some p)) c none) g =
        some gn := by
      rw [getN_setParent_ne (Ne.symm hgc), getN_setParent_ne hmg,
        getN_setLeft_ne (Ne.symm hgp2), hgn]
    have hb_c : getN (setParent (setParent (setLeft t p (some m)) m (some p)) c none) c =
        some { cn with parent := none } := by
      have hx : getN (setParent (setLeft t p (some m)) m (some p)) c = some cn := by
        rw [getN_setParent_ne hmc, getN_setLeft_ne hpc, hcn]
      rw [getN_setParent_self hx]
    by_cases hslot : gn.left = some p
    · refine ⟨setParent (setRight (setParent (setLeft (setParent (setParent
        (setLeft t p (some m)) m (some p)) c none) g (some c)) c (some g)) c (some p))
        p (some c), ?_, ?_, ?_, ?_, ?_, ?_, ?_, ?_, ?_, ?_⟩
      · simp only [rotation, Option.bind_eq_bind, Option.some_bind, hcn, hp, hpn, hdirn,
          hmr, root_setLeft, root_setParent, hnroot, if_false, ite_false, hb_p, hgp,
          hb_g, hslot, if_true, ite_true]
      · simp [root_setParent, root_setLeft, root_setRight]
      · simp [length_setParent, length_setLeft, length_setRight]
      · rw [getN_setParent_self (n := { pn with left := some m })]
        rw [getN_setRight_ne (Ne.symm hpc), getN_setParent_ne (Ne.symm hpc),
          getN_setLeft_ne hgp2, hb_p]
      · rw [getN_setParent_ne hpc, getN_setRight_self (n := { cn with parent := some g })]
        rw [getN_setParent_self (n := { cn with parent := none })]
        rw [getN_setLeft_ne hgc, hb_c]
      · rw [if_pos hslot]
        rw [getN_setParent_ne (Ne.symm hgp2), getN_setRight_ne (Ne.symm hgc),
          getN_setParent_ne (Ne.symm hgc), getN_setLeft_self (n := gn)]
        rw [hb_g]
      · intro m2 mn hmm hmn
        obtain rfl : m = m2 := Option.some.inj hmm
        rw [getN_setParent_ne (Ne.symm hmp), getN_setRight_ne (Ne.symm hmc),
          getN_setParent_ne (Ne.symm hmc), getN_setLeft_ne (Ne.symm hmg),
          getN_setParent_ne (Ne.symm hmc), getN_setParent_self (n := mn)]
        rw [getN_setLeft_ne (Ne.symm hmp), hmn]
      · intro j hjp hjc hjg hjm
        have hjm2 : j ≠ m := hjm m rfl
        rw [getN_setParent_ne (Ne.symm hjp), getN_setRight_ne (Ne.symm hjc),
          getN_setParent_ne (Ne.symm hjc), getN_setLeft_ne (Ne.symm hjg),
          getN_setParent_ne (Ne.symm hjc), getN_setParent_ne (Ne.symm hjm2),
          getN_setLeft_ne (Ne.symm hjp)]
      · intro j
        simp [colorOf_setParent, colorOf_setLeft, colorOf_setRight]
      · intro j hjp hjc hjg
        rw [shape_setParent, shape_setRight_ne (Ne.symm hjc), shape_setParent,
          shape_setLeft_ne (Ne.symm hjg), shape_setParent, shape_setParent,
          shape_setLeft_ne (Ne.symm hjp)]
    · refine ⟨setParent (setRight (setParent (setRight (setParent (setParent
        (setLeft t p (some m)) m (some p)) c none) g (some c)) c (some g)) c (some p))
        p (some c), ?_, ?_, ?_, ?_, ?_, ?_, ?_, ?_, ?_, ?_⟩
      · simp only [rotation, Option.bind_eq_bind, Option.some_bind, hcn, hp, hpn, hdirn,
          hmr, root_setLeft, root_setParent, hnroot, if_false, ite_false, hb_p, hgp,
          hb_g, hslot, if_true, ite_true]
      · simp [root_setParent, root_setLeft, root_setRight]
      · simp [length_setParent, length_setLeft, length_setRight]
      · rw [getN_setParent_self (n := { pn with left := some m })]
        rw [getN_setRight_ne (Ne.symm hpc), getN_setParent_ne (Ne.symm hpc),
          getN_setRight_ne hgp2, hb_p]
      · rw [getN_setParent_ne hpc, getN_setRight_self (n := { cn with parent := some g })]
        rw [getN_setParent_self (n := { cn with parent := none })]
        rw [getN_setRight_ne hgc, hb_c]
      · rw [if_neg hslot]
        rw [getN_setParent_ne (Ne.symm hgp2), getN_setRight_ne (Ne.symm hgc),
          getN_setParent_ne (Ne.symm hgc), getN_setRight_self (n := gn)]
        rw [hb_g]
      · intro m2 mn hmm hmn
        obtain rfl : m = m2 := Option.some.inj hmm
        rw [getN_setParent_ne (Ne.symm hmp), getN_setRight_ne (Ne.symm hmc),
          getN_setParent_ne (Ne.symm hmc), getN_setRight_ne (Ne.symm hmg),
          getN_setParent_ne (Ne.symm hmc), getN_setParent_self (n := mn)]
        rw [getN_setLeft_ne (Ne.symm hmp), hmn]
      · intro j hjp hjc hjg hjm
        have hjm2 : j ≠ m := hjm m rfl
        rw [getN_setParent_ne (Ne.symm hjp), getN_setRight_ne (Ne.symm hjc),
          getN_setParent_ne (Ne.symm hjc), getN_setRight_ne (Ne.symm hjg),
          getN_setParent_ne (Ne.symm hjc), getN_setParent_ne (Ne.symm hjm2),
          getN_setLeft_ne (Ne.symm hjp)]
      · intro j
        simp [colorOf_setParent, colorOf_setLeft, colorOf_setRight]
      · intro j hjp hjc hjg
        rw [shape_setParent, shape_setRight_ne (Ne.symm hjc), shape_setParent,
          shape_setRight_ne (Ne.symm hjg), shape_setParent, shape_setParent,
          shape_setLeft_ne (Ne.symm hjp)]

theorem rotation_left_root
    (t : RedBlackTree) (c p : Nat) (cn pn : RBNode)
    (hcn : getN t c = some cn) (hp : cn.parent = some p)
    (hpn : getN t p = some pn) (hdir : pn.right = some c)
    (hroot : t.root = some p) (hpc : p ≠ c)
    (hmsep : ∀ m, cn.left = some m → m ≠ p ∧ m ≠ c) :
    ∃ t2, rotation t c = some t2 ∧
      t2.root = some c ∧
      t2.nodes.length = t.nodes.length ∧
      getN t2 p = some { pn with right := cn.left, parent := some c } ∧
      getN t2 c = some { cn with left := some p, parent := none } ∧
      (∀ m mn, cn.left = some m → getN t m = some mn →
        getN t2 m = some { mn with parent := some p }) ∧
      (∀ j, j ≠ p → j ≠ c → (∀ m, cn.left = some m → j ≠ m) →
        getN t2 j = getN t j) ∧
      (∀ j, colorOf t2 j = colorOf t j) ∧
      (∀ j, j ≠ p → j ≠ c → shape t2 j = shape t j) := by
  cases hml : cn.left with
  | none =>
    have hb_p : getN (setRight t p none) p = some { pn with right := none } :=
      getN_setRight_self hpn none
    have hb_c : getN (setRight t p none) c = some cn := by
      rw [getN_setRight_ne hpc, hcn]
    refine ⟨setParent (setLeft (setParent { setRight t p none with root := some c }
      c none) c (some p)) p (some c), ?_, ?_, ?_, ?_, ?_, ?_, ?_, ?_, ?_⟩
    · simp only [rotation, Option.bind_eq_bind, Option.some_bind, hcn, hp, hpn, hdir,
        hml, root_setRight, hroot, if_true, ite_true]
    · simp [root_setParent, root_setLeft]
    · simp [length_setParent, length_setLeft, length_setRight]
    · rw [getN_setParent_self (n := { pn with right := none })]
      rw [getN_setLeft_ne (Ne.symm hpc), getN_setParent_ne (Ne.symm hpc), getN_rootUpd, hb_p]
    · rw [getN_setParent_ne hpc, getN_setLeft_self (n := { cn with parent := none })]
      rw [getN_setParent_self (n := cn)]
      rw [getN_rootUpd, hb_c]
    · intro m mn hmm
      exact absurd hmm (by simp)
    · intro j hjp hjc _
      rw [getN_setParent_ne (Ne.symm hjp), getN_setLeft_ne (Ne.symm hjc),
        getN_setParent_ne (Ne.symm hjc), getN_rootUpd, getN_setRight_ne (Ne.symm hjp)]
    · intro j
      simp [colorOf_setParent, colorOf_setLeft, colorOf_setRight, colorOf_rootUpd]
    · intro j hjp hjc
      rw [shape_setParent, shape_setLeft_ne (Ne.symm hjc), shape_setParent,
        shape_rootUpd, shape_setRight_ne (Ne.symm hjp)]
  | some m =>
    obtain ⟨hmp, hmc⟩ := hmsep m hml
    have hb_p : getN (setParent (setRight t p (some m)) m (some p)) p =
        some { pn with right := some m } := by
      rw [getN_setParent_ne hmp, getN_setRight_self hpn]
    have hb_c : getN (setParent (setRight t p (some m)) m (some p)) c = some cn := by
      rw [getN_setParent_ne hmc, getN_setRight_ne hpc, hcn]
    refine ⟨setParent (setLeft (setParent { setParent (setRight t p (some m)) m (some p)
      with root := some c } c none) c (some p)) p (some c), ?_, ?_, ?_, ?_, ?_, ?_, ?_, ?_, ?_⟩
    · simp only [rotation, Option.bind_eq_bind, Option.some_bind, hcn, hp, hpn, hdir,
        hml, root_setRight, root_setParent, hroot, if_true, ite_true]
    · simp [root_setParent, root_setLeft]
    · simp [length_setParent, length_setLeft, length_setRight]
    · rw [getN_setParent_self (n := { pn with right := some m })]
      rw [getN_setLeft_ne (Ne.symm hpc), getN_setParent_ne (Ne.symm hpc), getN_rootUpd, hb_p]
    · rw [getN_setParent_ne hpc, getN_setLeft_self (n := { cn with parent := none })]
      rw [getN_setParent_self (n := cn)]
      rw [getN_rootUpd, hb_c]
    · intro m2 mn hmm hmn
      obtain rfl : m = m2 := Option.some.inj hmm
      rw [getN_setParent_ne (Ne.symm hmp), getN_setLeft_ne (Ne.symm hmc),
        getN_setParent_ne (Ne.symm hmc), getN_rootUpd, getN_setParent_self (n := mn)]
      rw [getN_setRight_ne (Ne.symm hmp), hmn]
    · intro j hjp hjc hjm
      have hjm2 : j ≠ m := hjm m rfl
      rw [getN_setParent_ne (Ne.symm hjp), getN_setLeft_ne (Ne.symm hjc),
        getN_setParent_ne (Ne.symm hjc), getN_rootUpd, getN_setParent_ne (Ne.symm hjm2),
        getN_setRight_ne (Ne.symm hjp)]
    · intro j
      simp [colorOf_setParent, colorOf_setLeft, colorOf_setRight, colorOf_rootUpd]
    · intro j hjp hjc
      rw [shape_setParent, shape_setLeft_ne (Ne.symm hjc), shape_setParent,
        shape_rootUpd, shape_setParent, shape_setRight_ne (Ne.symm hjp)]

theorem rotation_right_root
    (t : RedBlackTree) (c p : Nat) (cn pn : RBNode)
    (hcn : getN t c = some cn) (hp : cn.parent = some p)
    (hpn : getN t p = some pn) (hdirn : pn.right ≠ some c) (hdir : pn.left = some c)
    (hroot : t.root = some p) (hpc : p ≠ c)
    (hmsep : ∀ m, cn.right = some m → m ≠ p ∧ m ≠ c) :
    ∃ t2, rotation t c = some t2 ∧
      t2.root = some c ∧
      t2.nodes.length = t.nodes.length ∧
      getN t2 p = some { pn with left := cn.right, parent := some c } ∧
      getN t2 c = some { cn with right := some p, parent := none } ∧
      (∀ m mn, cn.right = some m → getN t m = some mn →
        getN t2 m = some { mn with parent := some p }) ∧
      (∀ j, j ≠ p → j ≠ c → (∀ m, cn.right = some m → j ≠ m) →
        getN t2 j = getN t j) ∧
      (∀ j, colorOf t2 j = colorOf t j) ∧
      (∀ j, j ≠ p → j ≠ c → shape t2 j = shape t j) := by
  cases hmr : cn.right with
  | none =>
    have hb_p : getN (setLeft t p none) p = some { pn with left := none } :=
      getN_setLeft_self hpn none
    have hb_c : getN (setLeft t p none) c = some cn := by
      rw [getN_setLeft_ne hpc, hcn]
    refine ⟨setParent (setRight (setParent { setLeft t p none with root := some c }
      c none) c (some p)) p (some c), ?_, ?_, ?_, ?_, ?_, ?_, ?_, ?_, ?_⟩
    · simp only [rotation, Option.bind_eq_bind, Option.some_bind, hcn, hp, hpn, hdirn,
        hmr, root_setLeft, hroot, if_false, ite_false, if_true, ite_true]
    · simp [root_setParent, root_setRight]
    · simp [length_setParent, length_setLeft, length_setRight]
    · rw [getN_setParent_self (n := { pn with left := none })]
      rw [getN_setRight_ne (Ne.symm hpc), getN_setParent_ne (Ne.symm hpc), getN_rootUpd, hb_p]
    · rw [getN_setParent_ne hpc, getN_setRight_self (n := { cn with parent := none })]
      rw [getN_setParent_self (n := cn)]
      rw [getN_rootUpd, hb_c]
    · intro m mn hmm
      exact absurd hmm (by simp)
    · intro j hjp hjc _
      rw [getN_setParent_ne (Ne.symm hjp), getN_setRight_ne (Ne.symm hjc),
        getN_setParent_ne (Ne.symm hjc), getN_rootUpd, getN_setLeft_ne (Ne.symm hjp)]
    · intro j
      simp [colorOf_setParent, colorOf_setLeft, colorOf_setRight, colorOf_rootUpd]
    · intro j hjp hjc
      rw [shape_setParent, shape_setRight_ne (Ne.symm hjc), shape_setParent,
        shape_rootUpd, shape_setLeft_ne (Ne.symm hjp)]
  | some m =>
    obtain ⟨hmp, hmc⟩ := hmsep m hmr
    have hb_p : getN (setParent (setParent (setLeft t p (some m)) m (some p)) c none) p =
        some { pn with left := some m } := by
      rw [getN_setParent_ne (Ne.symm hpc), getN_setParent_ne hmp, getN_setLeft_self hpn]
    have hb_c : getN (setParent (setParent (setLeft t p (some m)) m (some p)) c none) c =
        some { cn with parent := none } := by
      have hx : getN (setParent (setLeft t p (some m)) m (some p)) c = some cn := by
        rw [getN_setParent_ne hmc, getN_setLeft_ne hpc, hcn]
      rw [getN_setParent_self hx]
    refine ⟨setParent (setRight (setParent { setParent (setParent (setLeft t p (some m))
      m (some p)) c none with root := some c } c none) c (some p)) p (some c),
      ?_, ?_, ?_, ?_, ?_, ?_, ?_, ?_, ?_⟩
    · simp only [rotation, Option.bind_eq_bind, Option.some_bind, hcn, hp, hpn, hdirn,
        hmr, root_setLeft, root_setParent, hroot, if_false, ite_false, if_true, ite_true]
    · simp [root_setParent, root_setRight]
    · simp [length_setParent, length_setLeft, length_setRight]
    · rw [getN_setParent_self (n := { pn with left := some m })]
      rw [getN_setRight_ne (Ne.symm hpc), getN_setParent_ne (Ne.symm hpc), getN_rootUpd, hb_p]
    · rw [getN_setParent_ne hpc, getN_setRight_self (n := { cn with parent := none })]
      rw [getN_setParent_self (n := { cn with parent := none })]
      rw [getN_rootUpd, hb_c]
    · intro m2 mn hmm hmn
      obtain rfl : m = m2 := Option.some.inj hmm
      rw [getN_setParent_ne (Ne.symm hmp), getN_setRight_ne (Ne.symm hmc),
        getN_setParent_ne (Ne.symm hmc), getN_rootUpd, getN_setParent_ne (Ne.symm hmc),
        getN_setParent_self (n := mn)]
      rw [getN_setLeft_ne (Ne.symm hmp), hmn]
    · intro j hjp hjc hjm
      have hjm2 : j ≠ m := hjm m rfl
      rw [getN_setParent_ne (Ne.symm hjp), getN_setRight_ne (Ne.symm hjc),
        getN_setParent_ne (Ne.symm hjc), getN_rootUpd, getN_setParent_ne (Ne.symm hjc),
        getN_setParent_ne (Ne.symm hjm2), getN_setLeft_ne (Ne.symm hjp)]
    · intro j
      simp [colorOf_setParent, colorOf_setLeft, colorOf_setRight, colorOf_rootUpd]
    · intro j hjp hjc
      rw [shape_setParent, shape_setRight_ne (Ne.symm hjc), shape_setParent,
        shape_rootUpd, shape_setParent, shape_setParent, shape_setLeft_ne (Ne.symm hjp)]

theorem inorderVals_node (t : RedBlackTree) (f i : Nat) (n : RBNode)
    (hg : getN t i = some n) {L R : List Int}
    (hL : inorderVals t f n.left = some L) (hR : inorderVals t f n.right = some R) :
    inorderVals t (f + 1) (some i) = some (L ++ n.data :: R) := by
  simp [inorderVals, hg, hL, hR]

theorem reachL_self_mem {t : RedBlackTree} {f i : Nat} {ids : List Nat}
    (h : reachL t f (some i) = some ids) : i ∈ ids := by
  cases f with
  | zero => simp [reachL] at h
  | succ f =>
    cases hg : getN t i with
    | none => simp [reachL, hg] at h
    | some n =>
      obtain ⟨L, R, _, _, rfl⟩ := reachL_some_inv hg h
      exact List.mem_cons_self i (L ++ R)

/-- Assembly of the rotation specification for the non-root, left
rotation case: the pivot `c` is the right child of `p`, and `p` hangs
below the grandparent `g` somewhere under the root. -/
theorem rotation_spec_nonroot_left
    (t : RedBlackTree) (c p g : Nat) (cn pn gn : RBNode) (ids : List Nat)
    (hcn : getN t c = some cn)
    (hreach : reachL t (t.nodes.length + 1) t.root = some ids)
    (hnd : ids.Nodup)
    (hp : cn.parent = some p) (hpn : getN t p = some pn)
    (hdir : pn.right = some c) (hpc : p ≠ c)
    (hcsep : ∀ x, (cn.left = some x ∨ cn.right = some x) → x ≠ p ∧ x ≠ c)
    (hkids : ∀ x, (cn.left = some x ∨ cn.right = some x) → ∃ xn, getN t x = some xn)
    (hpson : ∀ x, (pn.left = some x ∨ pn.right = some x) → x ≠ c →
      x ≠ p ∧ (∀ m, (cn.left = some m ∨ cn.right = some m) → x ≠ m) ∧
      (∀ g2, pn.parent = some g2 → x ≠ g2) ∧
      ∃ xn, getN t x = some xn ∧ xn.parent = some p)
    (hnroot : t.root ≠ some p)
    (hgp : pn.parent = some g) (hgn : getN t g = some gn)
    (hgslot : gn.left = some p ∨ gn.right = some p)
    (hpath : PathDown t g t.root)
    (hgp2 : g ≠ p) (hgc : g ≠ c)
    (hgm : ∀ m, (cn.left = some m ∨ cn.right = some m) → g ≠ m) :
    ∃ t2, rotation t c = some t2 ∧
      inorder t2 = inorder t ∧
      (∀ j, colorOf t2 j = colorOf t j) ∧
      t2.root = t.root ∧
      parentConsistentAt t2 c ∧ parentConsistentAt t2 p ∧
      (∀ x n2, getN t2 p = some n2 → (n2.left = some x ∨ n2.right = some x) →
        parentConsistentAt t2 x) := by
  obtain ⟨t2, heq, hroot2, hlen2, hfp, hfc, hfg, hfm, hoth, hcol, hshp⟩ :=
    rotation_left_nonroot t c p g cn pn gn hcn hp hpn hdir hnroot hgp hgn hpc hgp2 hgc
      (fun m hm => ⟨(hcsep m (Or.inl hm)).1, (hcsep m (Or.inl hm)).2,
        Ne.symm (hgm m (Or.inl hm))⟩)
  have hPCc : parentConsistentAt t2 c := by
    intro n hn
    rw [hfc] at hn
    obtain rfl : ({ cn with left := some p, parent := some g } : RBNode) = n :=
      Option.some.inj hn
    constructor
    · intro hnone
      exact absurd hnone (by simp)
    · intro q qn hq hqn
      obtain rfl : g = q := Option.some.inj hq
      rw [hfg] at hqn
      by_cases hgsl : gn.left = some p
      · rw [if_pos hgsl] at hqn
        obtain rfl := Option.some.inj hqn
        exact Or.inl rfl
      · rw [if_neg hgsl] at hqn
        obtain rfl := Option.some.inj hqn
        exact Or.inr rfl
  have hPCp : parentConsistentAt t2 p := by
    intro n hn
    rw [hfp] at hn
    obtain rfl : ({ pn with right := cn.left, parent := some c } : RBNode) = n :=
      Option.some.inj hn
    constructor
    · intro hnone
      exact absurd hnone (by simp)
    · intro q qn hq hqn
      obtain rfl : c = q := Option.some.inj hq
      rw [hfc] at hqn
      obtain rfl := Option.some.inj hqn
      exact Or.inl rfl
  have hPCx : ∀ x n2, getN t2 p = some n2 →
      (n2.left = some x ∨ n2.right = some x) → parentConsistentAt t2 x := by
    intro x n2 hn2 hslot2
    rw [hfp] at hn2
    obtain rfl : ({ pn with right := cn.left, parent := some c } : RBNode) = n2 :=
      Option.some.inj hn2
    rcases hslot2 with hxl | hxr
    · -- x is the untouched left child of p
      have hpl : pn.left = some x := hxl
      by_cases hxc : x = c
      · subst hxc
        exact hPCc
      · obtain ⟨hxp, hxm, hxg, xn, hxn, hxpar⟩ := hpson x (Or.inl hpl) hxc
        have hx2 : getN t2 x = getN t x :=
          hoth x hxp hxc (hxg g hgp) (fun m hm => hxm m (Or.inl hm))
        intro n hn
        rw [hx2, hxn] at hn
        obtain rfl : xn = n := Option.some.inj hn
        constructor
        · intro hnone
          rw [hxpar] at hnone
          exact absurd hnone (by simp)
        · intro q qn hq hqn
          rw [hxpar] at hq
          obtain rfl : p = q := Option.some.inj hq
          rw [hfp] at hqn
          obtain rfl := Option.some.inj hqn
          exact Or.inl hpl
    · -- x is the middle subtree, now the right child of p
      have hml : cn.left = some x := hxr
      obtain ⟨hmp, hmc⟩ := hcsep x (Or.inl hml)
      obtain ⟨mn, hmn⟩ := hkids x (Or.inl hml)
      have hx2 : getN t2 x = some { mn with parent := some p } := hfm x mn hml hmn
      intro n hn
      rw [hx2] at hn
      obtain rfl : ({ mn with parent := some p } : RBNode) = n := Option.some.inj hn
      constructor
      · intro hnone
        exact absurd hnone (by simp)
      · intro q qn hq hqn
        obtain rfl : p = q := Option.some.inj hq
        rw [hfp] at hqn
        obtain rfl := Option.some.inj hqn
        exact Or.inr hml
  have hio : inorder t2 = inorder t := by
    obtain ⟨gids, hgreach, hgsub⟩ :=
      reachL_pathdown t g (t.nodes.length + 1) t.root ids hpath hreach
    have hndg : gids.Nodup := hnd.sublist hgsub
    obtain ⟨Gl, Gr, hGL, hGR, hgid⟩ := reachL_some_inv hgn hgreach
    subst hgid
    have hndg2 := List.nodup_cons.mp hndg
    have hndGLR := List.nodup_append.mp hndg2.2
    obtain ⟨xs0, hio0, _⟩ :=
      reachL_inorder_length t (t.nodes.length + 1) t.root ids hreach
    by_cases hgsl : gn.left = some p
    · have hpathp : PathDown t p gn.left := by rw [hgsl]; exact PathDown.here
      obtain ⟨pids0, hpreach0, hsub0⟩ :=
        reachL_pathdown t p t.nodes.length gn.left Gl hpathp hGL
      have hndp0 : pids0.Nodup := hndGLR.1.sublist hsub0
      have hgnotp : g ∉ pids0 := fun hmem =>
        hndg2.1 (List.mem_append.mpr (Or.inl (hsub0.subset hmem)))
      have hpin : p ∈ pids0 := reachL_self_mem hpreach0
      have hcin : c ∈ pids0 := reachL_child_mem hpreach0 hpn (Or.inr hdir)
      have hloc : ∀ f xs, inorderVals t f (some p) = some xs →
          inorderVals t2 (f + 1) (some c) = some xs :=
        inorder_local_left t t2 p c cn pn
          { pn with right := cn.left, parent := some c }
          { cn with left := some p, parent := some g }
          hcn hpn hdir hfp rfl rfl rfl hfc rfl rfl rfl
          t.nodes.length pids0 hpreach0 hndp0
          (fun j hjp hjc hjm =>
            hshp j hjp hjc (fun he => hgnotp (he ▸ hjm)))
      have hgstep : ∀ f xs, inorderVals t f (some g) = some xs →
          inorderVals t2 (f + 1) (some g) = some xs := by
        intro f xs hiox
        cases f with
        | zero => simp [inorderVals] at hiox
        | succ f1 =>
          obtain ⟨GLv, GRv, hGLv, hGRv, rfl⟩ := inorderVals_some_inv hgn hiox
          rw [hgsl] at hGLv
          have h1 := hloc f1 GLv hGLv
          have hshGR : ∀ j ∈ Gr, shape t2 j = shape t j := by
            intro j hj
            apply hshp
            · intro he
              exact hndGLR.2.2 (hsub0.subset hpin) (he ▸ hj)
            · intro he
              exact hndGLR.2.2 (hsub0.subset hcin) (he ▸ hj)
            · intro he
              exact hndg2.1 (List.mem_append.mpr (Or.inr (he ▸ hj)))
          have h2 : inorderVals t2 (f1 + 1) gn.right = some GRv :=
            frame_mono t t2 gn.right t.nodes.length Gr hGR hshGR f1 (f1 + 1)
              (Nat.le_succ f1) GRv hGRv
          have hfg2 : getN t2 g = some { gn with left := some c } := by
            rw [hfg, if_pos hgsl]
          exact inorderVals_node t2 (f1 + 1) g _ hfg2 h1 h2
      have hchg : ∀ j, j ∉ g :: (Gl ++ Gr) → shape t2 j = shape t j := by
        intro j hj
        apply hshp
        · intro he
          apply hj
          rw [he]
          exact List.mem_cons_of_mem g (List.mem_append.mpr (Or.inl (hsub0.subset hpin)))
        · intro he
          apply hj
          rw [he]
          exact List.mem_cons_of_mem g (List.mem_append.mpr (Or.inl (hsub0.subset hcin)))
        · intro he
          apply hj
          rw [he]
          exact List.mem_cons_self g (Gl ++ Gr)
      have hctx := inorder_ctx t t2 g (g :: (Gl ++ Gr)) hgreach hchg hgstep
        (t.nodes.length + 1) t.root ids hreach hnd hpath xs0 hio0
      have hlenb : xs0.length ≤ t2.nodes.length := by
        rw [hlen2]
        exact inorder_length_bound t t.root (t.nodes.length + 1) (t.nodes.length + 1)
          ids xs0 hreach hnd hio0
      have hi2 : inorder t2 = some xs0 :=
        inorder_of_big t2 t.root (t.nodes.length + 1 + 1) xs0 hctx hroot2 hlenb
      rw [hi2, inorder, hio0]
    · have hgsr : gn.right = some p := by
        rcases hgslot with h | h
        · exact absurd h hgsl
        · exact h
      have hpathp : PathDown t p gn.right := by rw [hgsr]; exact PathDown.here
      obtain ⟨pids0, hpreach0, hsub0⟩ :=
        reachL_pathdown t p t.nodes.length gn.right Gr hpathp hGR
      have hndp0 : pids0.Nodup := hndGLR.2.1.sublist hsub0
      have hgnotp : g ∉ pids0 := fun hmem =>
        hndg2.1 (List.mem_append.mpr (Or.inr (hsub0.subset hmem)))
      have hpin : p ∈ pids0 := reachL_self_mem hpreach0
      have hcin : c ∈ pids0 := reachL_child_mem hpreach0 hpn (Or.inr hdir)
      have hloc : ∀ f xs, inorderVals t f (some p) = some xs →
          inorderVals t2 (f + 1) (some c) = some xs :=
        inorder_local_left t t2 p c cn pn
          { pn with right := cn.left, parent := some c }
          { cn with left := some p, parent := some g }
          hcn hpn hdir hfp rfl rfl rfl hfc rfl rfl rfl
          t.nodes.length pids0 hpreach0 hndp0
          (fun j hjp hjc hjm =>
            hshp j hjp hjc (fun he => hgnotp (he ▸ hjm)))
      have hgstep : ∀ f xs, inorderVals t f (some g) = some xs →
          inorderVals t2 (f + 1) (some g) = some xs := by
        intro f xs hiox
        cases f with
        | zero => simp [inorderVals] at hiox
        | succ f1 =>
          obtain ⟨GLv, GRv, hGLv, hGRv, rfl⟩ := inorderVals_some_inv hgn hiox
          rw [hgsr] at hGRv
          have h1 := hloc f1 GRv hGRv
          have hshGL : ∀ j ∈ Gl, shape t2 j = shape t j := by
            intro j hj
            apply hshp
            · intro he
              exact hndGLR.2.2 (he ▸ hj) (hsub0.subset hpin)
            · intro he
              exact hndGLR.2.2 (he ▸ hj) (hsub0.subset hcin)
            · intro he
              exact hndg2.1 (List.mem_append.mpr (Or.inl (he ▸ hj)))
          have h2 : inorderVals t2 (f1 + 1) gn.left = some GLv :=
            frame_mono t t2 gn.left t.nodes.length Gl hGL hshGL f1 (f1 + 1)
              (Nat.le_succ f1) GLv hGLv
          have hfg2 : getN t2 g = some { gn with right := some c } := by
            rw [hfg, if_neg hgsl]
          exact inorderVals_node t2 (f1 + 1) g _ hfg2 h2 h1
      have hchg : ∀ j, j ∉ g :: (Gl ++ Gr) → shape t2 j = shape t j := by
        intro j hj
        apply hshp
        · intro he
          apply hj
          rw [he]
          exact List.mem_cons_of_mem g (List.mem_append.mpr (Or.inr (hsub0.subset hpin)))
        · intro he
          apply hj
          rw [he]
          exact List.mem_cons_of_mem g (List.mem_append.mpr (Or.inr (hsub0.subset hcin)))
        · intro he
          apply hj
          rw [he]
          exact List.mem_cons_self g (Gl ++ Gr)
      have hctx := inorder_ctx t t2 g (g :: (Gl ++ Gr)) hgreach hchg hgstep
        (t.nodes.length + 1) t.root ids hreach hnd hpath xs0 hio0
      have hlenb : xs0.length ≤ t2.nodes.length := by
        rw [hlen2]
        exact inorder_length_bound t t.root (t.nodes.length + 1) (t.nodes.length + 1)
          ids xs0 hreach hnd hio0
      have hi2 : inorder t2 = some xs0 :=
        inorder_of_big t2 t.root (t.nodes.length + 1 + 1) xs0 hctx hroot2 hlenb
      rw [hi2, inorder, hio0]
  exact ⟨t2, heq, hio, hcol, hroot2, hPCc, hPCp, hPCx⟩

/-- Assembly of the rotation specification for the non-root, right
rotation case: the pivot `c` is the left child of `p` (and not its right
child), and `p` hangs below the grandparent `g` somewhere under the root. -/
theorem rotation_spec_nonroot_right
    (t : RedBlackTree) (c p g : Nat) (cn pn gn : RBNode) (ids : List Nat)
    (hcn : getN t c = some cn)
    (hreach : reachL t (t.nodes.length + 1) t.root = some ids)
    (hnd : ids.Nodup)
    (hp : cn.parent = some p) (hpn : getN t p = some pn)
    (hdirn : pn.right ≠ some c) (hdir : pn.left = some c) (hpc : p ≠ c)
    (hcsep : ∀ x, (cn.left = some x ∨ cn.right = some x) → x ≠ p ∧ x ≠ c)
    (hkids : ∀ x, (cn.left = some x ∨ cn.right = some x) → ∃ xn, getN t x = some xn)
    (hpson : ∀ x, (pn.left = some x ∨ pn.right = some x) → x ≠ c →
      x ≠ p ∧ (∀ m, (cn.left = some m ∨ cn.right = some m) → x ≠ m) ∧
      (∀ g2, pn.parent = some g2 → x ≠ g2) ∧
      ∃ xn, getN t x = some xn ∧ xn.parent = some p)
    (hnroot : t.root ≠ some p)
    (hgp : pn.parent = some g) (hgn : getN t g = some gn)
    (hgslot : gn.left = some p ∨ gn.right = some p)
    (hpath : PathDown t g t.root)
    (hgp2 : g ≠ p) (hgc : g ≠ c)
    (hgm : ∀ m, (cn.left = some m ∨ cn.right = some m) → g ≠ m) :
    ∃ t2, rotation t c = some t2 ∧
      inorder t2 = inorder t ∧
      (∀ j, colorOf t2 j = colorOf t j) ∧
      t2.root = t.root ∧
      parentConsistentAt t2 c ∧ parentConsistentAt t2 p ∧
      (∀ x n2, getN t2 p = some n2 → (n2.left = some x ∨ n2.right = some x) →
        parentConsistentAt t2 x) := by
  obtain ⟨t2, heq, hroot2, hlen2, hfp, hfc, hfg, hfm, hoth, hcol, hshp⟩ :=
    rotation_right_nonroot t c p g cn pn gn hcn hp hpn hdirn hdir hnroot hgp hgn hpc hgp2 hgc
      (fun m hm => ⟨(hcsep m (Or.inr hm)).1, (hcsep m (Or.inr hm)).2,
        Ne.symm (hgm m (Or.inr hm))⟩)
  have hPCc : parentConsistentAt t2 c := by
    intro n hn
    rw [hfc] at hn
    obtain rfl : ({ cn with right := some p, parent := some g } : RBNode) = n :=
      Option.some.inj hn
    constructor
    · intro hnone
      exact absurd hnone (by simp)
    · intro q qn hq hqn
      obtain rfl : g = q := Option.some.inj hq
      rw [hfg] at hqn
      by_cases hgsl : gn.left = some p
      · rw [if_pos hgsl] at hqn
        obtain rfl := Option.some.inj hqn
        exact Or.inl rfl
      · rw [if_neg hgsl] at hqn
        obtain rfl := Option.some.inj hqn
        exact Or.inr rfl
  have hPCp : parentConsistentAt t2 p := by
    intro n hn
    rw [hfp] at hn
    obtain rfl : ({ pn with left := cn.right, parent := some c } : RBNode) = n :=
      Option.some.inj hn
    constructor
    · intro hnone
      exact absurd hnone (by simp)
    · intro q qn hq hqn
      obtain rfl : c = q := Option.some.inj hq
      rw [hfc] at hqn
      obtain rfl := Option.some.inj hqn
      exact Or.inr rfl
  have hPCx : ∀ x n2, getN t2 p = some n2 →
      (n2.left = some x ∨ n2.right = some x) → parentConsistentAt t2 x := by
    intro x n2 hn2 hslot2
    rw [hfp] at hn2
    obtain rfl : ({ pn with left := cn.right, parent := some c } : RBNode) = n2 :=
      Option.some.inj hn2
    rcases hslot2 with hxl | hxr
    · -- x is the middle subtree, now the left child of p
      have hml : cn.right = some x := hxl
      obtain ⟨hmp, hmc⟩ := hcsep x (Or.inr hml)
      obtain ⟨mn, hmn⟩ := hkids x (Or.inr hml)
      have hx2 : getN t2 x = some { mn with parent := some p } := hfm x mn hml hmn
      intro n hn
      rw [hx2] at hn
      obtain rfl : ({ mn with parent := some p } : RBNode) = n := Option.some.inj hn
      constructor
      · intro hnone
        exact absurd hnone (by simp)
      · intro q qn hq hqn
        obtain rfl : p = q := Option.some.inj hq
        rw [hfp] at hqn
        obtain rfl := Option.some.inj hqn
        exact Or.inl hml
    · -- x is the untouched right child of p
      have hpr : pn.right = some x := hxr
      have hxc : x ≠ c := fun he => hdirn (he ▸ hpr)
      obtain ⟨hxp, hxm, hxg, xn, hxn, hxpar⟩ := hpson x (Or.inr hpr) hxc
      have hx2 : getN t2 x = getN t x :=
        hoth x hxp hxc (hxg g hgp) (fun m hm => hxm m (Or.inr hm))
      intro n hn
      rw [hx2, hxn] at hn
      obtain rfl : xn = n := Option.some.inj hn
      constructor
      · intro hnone
        rw [hxpar] at hnone
        exact absurd hnone (by simp)
      · intro q qn hq hqn
        rw [hxpar] at hq
        obtain rfl : p = q := Option.some.inj hq
        rw [hfp] at hqn
        obtain rfl := Option.some.inj hqn
        exact Or.inr hpr
  have hio : inorder t2 = inorder t := by
    obtain ⟨gids, hgreach, hgsub⟩ :=
      reachL_pathdown t g (t.nodes.length + 1) t.root ids hpath hreach
    have hndg : gids.Nodup := hnd.sublist hgsub
    obtain ⟨Gl, Gr, hGL, hGR, hgid⟩ := reachL_some_inv hgn hgreach
    subst hgid
    have hndg2 := List.nodup_cons.mp hndg
    have hndGLR := List.nodup_append.mp hndg2.2
    obtain ⟨xs0, hio0, _⟩ :=
      reachL_inorder_length t (t.nodes.length + 1) t.root ids hreach
    by_cases hgsl : gn.left = some p
    · have hpathp : PathDown t p gn.left := by rw [hgsl]; exact PathDown.here
      obtain ⟨pids0, hpreach0, hsub0⟩ :=
        reachL_pathdown t p t.nodes.length gn.left Gl hpathp hGL
      have hndp0 : pids0.Nodup := hndGLR.1.sublist hsub0
      have hgnotp : g ∉ pids0 := fun hmem =>
        hndg2.1 (List.mem_append.mpr (Or.inl (hsub0.subset hmem)))
      have hpin : p ∈ pids0 := reachL_self_mem hpreach0
      have hcin : c ∈ pids0 := reachL_child_mem hpreach0 hpn (Or.inl hdir)
      have hloc : ∀ f xs, inorderVals t f (some p) = some xs →
          inorderVals t2 (f + 1) (some c) = some xs :=
        inorder_local_right t t2 p c cn pn
          { pn with left := cn.right, parent := some c }
          { cn with right := some p, parent := some g }
          hcn hpn hdir hfp rfl rfl rfl hfc rfl rfl rfl
          t.nodes.length pids0 hpreach0 hndp0
          (fun j hjp hjc hjm =>
            hshp j hjp hjc (fun he => hgnotp (he ▸ hjm)))
      have hgstep : ∀ f xs, inorderVals t f (some g) = some xs →
          inorderVals t2 (f + 1) (some g) = some xs := by
        intro f xs hiox
        cases f with
        | zero => simp [inorderVals] at hiox
        | succ f1 =>
          obtain ⟨GLv, GRv, hGLv, hGRv, rfl⟩ := inorderVals_some_inv hgn hiox
          rw [hgsl] at hGLv
          have h1 := hloc f1 GLv hGLv
          have hshGR : ∀ j ∈ Gr, shape t2 j = shape t j := by
            intro j hj
            apply hshp
            · intro he
              exact hndGLR.2.2 (hsub0.subset hpin) (he ▸ hj)
            · intro he
              exact hndGLR.2.2 (hsub0.subset hcin) (he ▸ hj)
            · intro he
              exact hndg2.1 (List.mem_append.mpr (Or.inr (he ▸ hj)))
          have h2 : inorderVals t2 (f1 + 1) gn.right = some GRv :=
            frame_mono t t2 gn.right t.nodes.length Gr hGR hshGR f1 (f1 + 1)
              (Nat.le_succ f1) GRv hGRv
          have hfg2 : getN t2 g = some { gn with left := some c } := by
            rw [hfg, if_pos hgsl]
          exact inorderVals_node t2 (f1 + 1) g _ hfg2 h1 h2
      have hchg : ∀ j, j ∉ g :: (Gl ++ Gr) → shape t2 j = shape t j := by
        intro j hj
        apply hshp
        · intro he
          apply hj
          rw [he]
          exact List.mem_cons_of_mem g (List.mem_append.mpr (Or.inl (hsub0.subset hpin)))
        · intro he
          apply hj
          rw [he]
          exact List.mem_cons_of_mem g (List.mem_append.mpr (Or.inl (hsub0.subset hcin)))
        · intro he
          apply hj
          rw [he]
          exact List.mem_cons_self g (Gl ++ Gr)
      have hctx := inorder_ctx t t2 g (g :: (Gl ++ Gr)) hgreach hchg hgstep
        (t.nodes.length + 1) t.root ids hreach hnd hpath xs0 hio0
      have hlenb : xs0.length ≤ t2.nodes.length := by
        rw [hlen2]
        exact inorder_length_bound t t.root (t.nodes.length + 1) (t.nodes.length + 1)
          ids xs0 hreach hnd hio0
      have hi2 : inorder t2 = some xs0 :=
        inorder_of_big t2 t.root (t.nodes.length + 1 + 1) xs0 hctx hroot2 hlenb
      rw [hi2, inorder, hio0]
    · have hgsr : gn.right = some p := by
        rcases hgslot with h | h
        · exact absurd h hgsl
        · exact h
      have hpathp : PathDown t p gn.right := by rw [hgsr]; exact PathDown.here
      obtain ⟨pids0, hpreach0, hsub0⟩ :=
        reachL_pathdown t p t.nodes.length gn.right Gr hpathp hGR
      have hndp0 : pids0.Nodup := hndGLR.2.1.sublist hsub0
      have hgnotp : g ∉ pids0 := fun hmem =>
        hndg2.1 (List.mem_append.mpr (Or.inr (hsub0.subset hmem)))
      have hpin : p ∈ pids0 := reachL_self_mem hpreach0
      have hcin : c ∈ pids0 := reachL_child_mem hpreach0 hpn (Or.inl hdir)
      have hloc : ∀ f xs, inorderVals t f (some p) = some xs →
          inorderVals t2 (f + 1) (some c) = some xs :=
        inorder_local_right t t2 p c cn pn
          { pn with left := cn.right, parent := some c }
          { cn with right := some p, parent := some g }
          hcn hpn hdir hfp rfl rfl rfl hfc rfl rfl rfl
          t.nodes.length pids0 hpreach0 hndp0
          (fun j hjp hjc hjm =>
            hshp j hjp hjc (fun he => hgnotp (he ▸ hjm)))
      have hgstep : ∀ f xs, inorderVals t f (some g) = some xs →
          inorderVals t2 (f + 1) (some g) = some xs := by
        intro f xs hiox
        cases f with
        | zero => simp [inorderVals] at hiox
        | succ f1 =>
          obtain ⟨GLv, GRv, hGLv, hGRv, rfl⟩ := inorderVals_some_inv hgn hiox
          rw [hgsr] at hGRv
          have h1 := hloc f1 GRv hGRv
          have hshGL : ∀ j ∈ Gl, shape t2 j = shape t j := by
            intro j hj
            apply hshp
            · intro he
              exact hndGLR.2.2 (he ▸ hj) (hsub0.subset hpin)
            · intro he
              exact hndGLR.2.2 (he ▸ hj) (hsub0.subset hcin)
            · intro he
              exact hndg2.1 (List.mem_append.mpr (Or.inl (he ▸ hj)))
          have h2 : inorderVals t2 (f1 + 1) gn.left = some GLv :=
            frame_mono t t2 gn.left t.nodes.length Gl hGL hshGL f1 (f1 + 1)
              (Nat.le_succ f1) GLv hGLv
          have hfg2 : getN t2 g = some { gn with right := some c } := by
            rw [hfg, if_neg hgsl]
          exact inorderVals_node t2 (f1 + 1) g _ hfg2 h2 h1
      have hchg : ∀ j, j ∉ g :: (Gl ++ Gr) → shape t2 j = shape t j := by
        intro j hj
        apply hshp
        · intro he
          apply hj
          rw [he]
          exact List.mem_cons_of_mem g (List.mem_append.mpr (Or.inr (hsub0.subset hpin)))
        · intro he
          apply hj
          rw [he]
          exact List.mem_cons_of_mem g (List.mem_append.mpr (Or.inr (hsub0.subset hcin)))
        · intro he
          apply hj
          rw [he]
          exact List.mem_cons_self g (Gl ++ Gr)
      have hctx := inorder_ctx t t2 g (g :: (Gl ++ Gr)) hgreach hchg hgstep
        (t.nodes.length + 1) t.root ids hreach hnd hpath xs0 hio0
      have hlenb : xs0.length ≤ t2.nodes.length := by
        rw [hlen2]
        exact inorder_length_bound t t.root (t.nodes.length + 1) (t.nodes.length + 1)
          ids xs0 hreach hnd hio0
      have hi2 : inorder t2 = some xs0 :=
        inorder_of_big t2 t.root (t.nodes.length + 1 + 1) xs0 hctx hroot2 hlenb
      rw [hi2, inorder, hio0]
  exact ⟨t2, heq, hio, hcol, hroot2, hPCc, hPCp, hPCx⟩

/-- Assembly of the rotation specification for the left rotation at the
root: the pivot `c` is the right child of the root `p`. -/
theorem rotation_spec_root_left
    (t : RedBlackTree) (c p : Nat) (cn pn : RBNode) (ids : List Nat)
    (hcn : getN t c = some cn)
    (hreach : reachL t (t.nodes.length + 1) t.root = some ids)
    (hnd : ids.Nodup)
    (hp : cn.parent = some p) (hpn : getN t p = some pn)
    (hdir : pn.right = some c) (hpc : p ≠ c)
    (hcsep : ∀ x, (cn.left = some x ∨ cn.right = some x) → x ≠ p ∧ x ≠ c)
    (hkids : ∀ x, (cn.left = some x ∨ cn.right = some x) → ∃ xn, getN t x = some xn)
    (hpson : ∀ x, (pn.left = some x ∨ pn.right = some x) → x ≠ c →
      x ≠ p ∧ (∀ m, (cn.left = some m ∨ cn.right = some m) → x ≠ m) ∧
      (∀ g2, pn.parent = some g2 → x ≠ g2) ∧
      ∃ xn, getN t x = some xn ∧ xn.parent = some p)
    (hroot : t.root = some p) :
    ∃ t2, rotation t c = some t2 ∧
      inorder t2 = inorder t ∧
      (∀ j, colorOf t2 j = colorOf t j) ∧
      t2.root = some c ∧
      (∀ n2, getN t2 c = some n2 → n2.parent = none) ∧
      parentConsistentAt t2 c ∧ parentConsistentAt t2 p ∧
      (∀ x n2, getN t2 p = some n2 → (n2.left = some x ∨ n2.right = some x) →
        parentConsistentAt t2 x) := by
  obtain ⟨t2, heq, hroot2, hlen2, hfp, hfc, hfm, hoth, hcol, hshp⟩ :=
    rotation_left_root t c p cn pn hcn hp hpn hdir hroot hpc
      (fun m hm => ⟨(hcsep m (Or.inl hm)).1, (hcsep m (Or.inl hm)).2⟩)
  have hPCc : parentConsistentAt t2 c := by
    intro n hn
    rw [hfc] at hn
    obtain rfl : ({ cn with left := some p, parent := none } : RBNode) = n :=
      Option.some.inj hn
    constructor
    · intro _
      exact hroot2
    · intro q qn hq _
      exact Option.noConfusion hq
  have hPCp : parentConsistentAt t2 p := by
    intro n hn
    rw [hfp] at hn
    obtain rfl : ({ pn with right := cn.left, parent := some c } : RBNode) = n :=
      Option.some.inj hn
    constructor
    · intro hnone
      exact absurd hnone (by simp)
    · intro q qn hq hqn
      obtain rfl : c = q := Option.some.inj hq
      rw [hfc] at hqn
      obtain rfl := Option.some.inj hqn
      exact Or.inl rfl
  have hPCx : ∀ x n2, getN t2 p = some n2 →
      (n2.left = some x ∨ n2.right = some x) → parentConsistentAt t2 x := by
    intro x n2 hn2 hslot2
    rw [hfp] at hn2
    obtain rfl : ({ pn with right := cn.left, parent := some c } : RBNode) = n2 :=
      Option.some.inj hn2
    rcases hslot2 with hxl | hxr
    · have hpl : pn.left = some x := hxl
      by_cases hxc : x = c
      · subst hxc
        exact hPCc
      · obtain ⟨hxp, hxm, _, xn, hxn, hxpar⟩ := hpson x (Or.inl hpl) hxc
        have hx2 : getN t2 x = getN t x :=
          hoth x hxp hxc (fun m hm => hxm m (Or.inl hm))
        intro n hn
        rw [hx2, hxn] at hn
        obtain rfl : xn = n := Option.some.inj hn
        constructor
        · intro hnone
          rw [hxpar] at hnone
          exact absurd hnone (by simp)
        · intro q qn hq hqn
          rw [hxpar] at hq
          obtain rfl : p = q := Option.some.inj hq
          rw [hfp] at hqn
          obtain rfl := Option.some.inj hqn
          exact Or.inl hpl
    · have hml : cn.left = some x := hxr
      obtain ⟨hmp, hmc⟩ := hcsep x (Or.inl hml)
      obtain ⟨mn, hmn⟩ := hkids x (Or.inl hml)
      have hx2 : getN t2 x = some { mn with parent := some p } := hfm x mn hml hmn
      intro n hn
      rw [hx2] at hn
      obtain rfl : ({ mn with parent := some p } : RBNode) = n := Option.some.inj hn
      constructor
      · intro hnone
        exact absurd hnone (by simp)
      · intro q qn hq hqn
        obtain rfl : p = q := Option.some.inj hq
        rw [hfp] at hqn
        obtain rfl := Option.some.inj hqn
        exact Or.inr hml
  have hreachp : reachL t (t.nodes.length + 1) (some p) = some ids := by
    rw [← hroot]
    exact hreach
  obtain ⟨xs0, hio0, _⟩ :=
    reachL_inorder_length t (t.nodes.length + 1) t.root ids hreach
  have hio0p : inorderVals t (t.nodes.length + 1) (some p) = some xs0 := by
    rw [← hroot]
    exact hio0
  have hloc : ∀ f xs, inorderVals t f (some p) = some xs →
      inorderVals t2 (f + 1) (some c) = some xs :=
    inorder_local_left t t2 p c cn pn
      { pn with right := cn.left, parent := some c }
      { cn with left := some p, parent := none }
      hcn hpn hdir hfp rfl rfl rfl hfc rfl rfl rfl
      (t.nodes.length + 1) ids hreachp hnd
      (fun j hjp hjc _ => hshp j hjp hjc)
  have h2 := hloc (t.nodes.length + 1) xs0 hio0p
  have hlenb : xs0.length ≤ t2.nodes.length := by
    rw [hlen2]
    exact inorder_length_bound t (some p) (t.nodes.length + 1) (t.nodes.length + 1)
      ids xs0 hreachp hnd hio0p
  have hi2 : inorder t2 = some xs0 :=
    inorder_of_big t2 (some c) (t.nodes.length + 1 + 1) xs0 h2 hroot2 hlenb
  have hio : inorder t2 = inorder t := by
    rw [hi2, inorder, hroot, hio0p]
  have hcpar : ∀ n2, getN t2 c = some n2 → n2.parent = none := by
    intro n2 hn2
    rw [hfc] at hn2
    obtain rfl : ({ cn with left := some p, parent := none } : RBNode) = n2 :=
      Option.some.inj hn2
    rfl
  exact ⟨t2, heq, hio, hcol, hroot2, hcpar, hPCc, hPCp, hPCx⟩

/-- Assembly of the rotation specification for the right rotation at the
root: the pivot `c` is the left child (and not the right child) of the
root `p`. -/
theorem rotation_spec_root_right
    (t : RedBlackTree) (c p : Nat) (cn pn : RBNode) (ids : List Nat)
    (hcn : getN t c = some cn)
    (hreach : reachL t (t.nodes.length + 1) t.root = some ids)
    (hnd : ids.Nodup)
    (hp : cn.parent = some p) (hpn : getN t p = some pn)
    (hdirn : pn.right ≠ some c) (hdir : pn.left = some c) (hpc : p ≠ c)
    (hcsep : ∀ x, (cn.left = some x ∨ cn.right = some x) → x ≠ p ∧ x ≠ c)
    (hkids : ∀ x, (cn.left = some x ∨ cn.right = some x) → ∃ xn, getN t x = some xn)
    (hpson : ∀ x, (pn.left = some x ∨ pn.right = some x) → x ≠ c →
      x ≠ p ∧ (∀ m, (cn.left = some m ∨ cn.right = some m) → x ≠ m) ∧
      (∀ g2, pn.parent = some g2 → x ≠ g2) ∧
      ∃ xn, getN t x = some xn ∧ xn.parent = some p)
    (hroot : t.root = some p) :
    ∃ t2, rotation t c = some t2 ∧
      inorder t2 = inorder t ∧
      (∀ j, colorOf t2 j = colorOf t j) ∧
      t2.root = some c ∧
      (∀ n2, getN t2 c = some n2 → n2.parent = none) ∧
      parentConsistentAt t2 c ∧ parentConsistentAt t2 p ∧
      (∀ x n2, getN t2 p = some n2 → (n2.left = some x ∨ n2.right = some x) →
        parentConsistentAt t2 x) := by
  obtain ⟨t2, heq, hroot2, hlen2, hfp, hfc, hfm, hoth, hcol, hshp⟩ :=
    rotation_right_root t c p cn pn hcn hp hpn hdirn hdir hroot hpc
      (fun m hm => ⟨(hcsep m (Or.inr hm)).1, (hcsep m (Or.inr hm)).2⟩)
  have hPCc : parentConsistentAt t2 c := by
    intro n hn
    rw [hfc] at hn
    obtain rfl : ({ cn with right := some p, parent := none } : RBNode) = n :=
      Option.some.inj hn
    constructor
    · intro _
      exact hroot2
    · intro q qn hq _
      exact Option.noConfusion hq
  have hPCp : parentConsistentAt t2 p := by
    intro n hn
    rw [hfp] at hn
    obtain rfl : ({ pn with left := cn.right, parent := some c } : RBNode) = n :=
      Option.some.inj hn
    constructor
    · intro hnone
      exact absurd hnone (by simp)
    · intro q qn hq hqn
      obtain rfl : c = q := Option.some.inj hq
      rw [hfc] at hqn
      obtain rfl := Option.some.inj hqn
      exact Or.inr rfl
  have hPCx : ∀ x n2, getN t2 p = some n2 →
      (n2.left = some x ∨ n2.right = some x) → parentConsistentAt t2 x := by
    intro x n2 hn2 hslot2
    rw [hfp] at hn2
    obtain rfl : ({ pn with left := cn.right, parent := some c } : RBNode) = n2 :=
      Option.some.inj hn2
    rcases hslot2 with hxl | hxr
    · have hml : cn.right = some x := hxl
      obtain ⟨hmp, hmc⟩ := hcsep x (Or.inr hml)
      obtain ⟨mn, hmn⟩ := hkids x (Or.inr hml)
      have hx2 : getN t2 x = some { mn with parent := some p } := hfm x mn hml hmn
      intro n hn
      rw [hx2] at hn
      obtain rfl : ({ mn with parent := some p } : RBNode) = n := Option.some.inj hn
      constructor
      · intro hnone
        exact absurd hnone (by simp)
      · intro q qn hq hqn
        obtain rfl : p = q := Option.some.inj hq
        rw [hfp] at hqn
        obtain rfl := Option.some.inj hqn
        exact Or.inl hml
    · have hpr : pn.right = some x := hxr
      have hxc : x ≠ c := fun he => hdirn (he ▸ hpr)
      obtain ⟨hxp, hxm, _, xn, hxn, hxpar⟩ := hpson x (Or.inr hpr) hxc
      have hx2 : getN t2 x = getN t x :=
        hoth x hxp hxc (fun m hm => hxm m (Or.inr hm))
      intro n hn
      rw [hx2, hxn] at hn
      obtain rfl : xn = n := Option.some.inj hn
      constructor
      · intro hnone
        rw [hxpar] at hnone
        exact absurd hnone (by simp)
      · intro q qn hq hqn
        rw [hxpar] at hq
        obtain rfl : p = q := Option.some.inj hq
        rw [hfp] at hqn
        obtain rfl := Option.some.inj hqn
        exact Or.inr hpr
  have hreachp : reachL t (t.nodes.length + 1) (some p) = some ids := by
    rw [← hroot]
    exact hreach
  obtain ⟨xs0, hio0, _⟩ :=
    reachL_inorder_length t (t.nodes.length + 1) t.root ids hreach
  have hio0p : inorderVals t (t.nodes.length + 1) (some p) = some xs0 := by
    rw [← hroot]
    exact hio0
  have hloc : ∀ f xs, inorderVals t f (some p) = some xs →
      inorderVals t2 (f + 1) (some c) = some xs :=
    inorder_local_right t t2 p c cn pn
      { pn with left := cn.right, parent := some c }
      { cn with right := some p, parent := none }
      hcn hpn hdir hfp rfl rfl rfl hfc rfl rfl rfl
      (t.nodes.length + 1) ids hreachp hnd
      (fun j hjp hjc _ => hshp j hjp hjc)
  have h2 := hloc (t.nodes.length + 1) xs0 hio0p
  have hlenb : xs0.length ≤ t2.nodes.length := by
    rw [hlen2]
    exact inorder_length_bound t (some p) (t.nodes.length + 1) (t.nodes.length + 1)
      ids xs0 hreachp hnd hio0p
  have hi2 : inorder t2 = some xs0 :=
    inorder_of_big t2 (some c) (t.nodes.length + 1 + 1) xs0 h2 hroot2 hlenb
  have hio : inorder t2 = inorder t := by
    rw [hi2, inorder, hroot, hio0p]
  have hcpar : ∀ n2, getN t2 c = some n2 → n2.parent = none := by
    intro n2 hn2
    rw [hfc] at hn2
    obtain rfl : ({ cn with right := some p, parent := none } : RBNode) = n2 :=
      Option.some.inj hn2
    rfl
  exact ⟨t2, heq, hio, hcol, hroot2, hcpar, hPCc, hPCp, hPCx⟩

/-- C6: The rotation routine is a standard binary-search-tree rotation
with respect to the current node. If the current node has no parent the
call is a no-op. Otherwise, when the current node is its parent's right
child a left rotation is performed, and otherwise a right rotation; in
either case (given the stated well-formedness of the surrounding
pointers, including a duplicate-free reachable arena) the rotation
succeeds and preserves the in-order value sequence and the color stored
at every node, correctly re-links the parent/child pointers of every
node involved (the pivot, the old parent, and the children the old
parent ends up with, including the transferred middle subtree), makes
the pivot the new root with no parent when the old parent was the root,
and keeps the root unchanged when the old parent hung below a
grandparent. -/
theorem rotation_spec (t : RedBlackTree) (c : Nat) (cn : RBNode) (ids : List Nat)
    (hcn : getN t c = some cn)
    (hreach : reachL t (t.nodes.length + 1) t.root = some ids)
    (hnd : ids.Nodup) :
    (cn.parent = none → rotation t c = some t) ∧
    (∀ p pn, cn.parent = some p → getN t p = some pn →
      (pn.right = some c ∨ pn.left = some c) → p ≠ c →
      (∀ x, (cn.left = some x ∨ cn.right = some x) → x ≠ p ∧ x ≠ c) →
      (∀ x, (cn.left = some x ∨ cn.right = some x) → ∃ xn, getN t x = some xn) →
      (∀ x, (pn.left = some x ∨ pn.right = some x) → x ≠ c →
        x ≠ p ∧ (∀ m, (cn.left = some m ∨ cn.right = some m) → x ≠ m) ∧
        (∀ g2, pn.parent = some g2 → x ≠ g2) ∧
        ∃ xn, getN t x = some xn ∧ xn.parent = some p) →
      ((t.root = some p →
        ∃ t2, rotation t c = some t2 ∧
          inorder t2 = inorder t ∧
          (∀ j, colorOf t2 j = colorOf t j) ∧
          t2.root = some c ∧
          (∀ n2, getN t2 c = some n2 → n2.parent = none) ∧
          parentConsistentAt t2 c ∧ parentConsistentAt t2 p ∧
          (∀ x n2, getN t2 p = some n2 → (n2.left = some x ∨ n2.right = some x) →
            parentConsistentAt t2 x)) ∧
       (∀ g gn, t.root ≠ some p → pn.parent = some g → getN t g = some gn →
          (gn.left = some p ∨ gn.right = some p) → PathDown t g t.root →
          g ≠ p → g ≠ c → (∀ m, (cn.left = some m ∨ cn.right = some m) → g ≠ m) →
          ∃ t2, rotation t c = some t2 ∧
            inorder t2 = inorder t ∧
            (∀ j, colorOf t2 j = colorOf t j) ∧
            t2.root = t.root ∧
            parentConsistentAt t2 c ∧ parentConsistentAt t2 p ∧
            (∀ x n2, getN t2 p = some n2 → (n2.left = some x ∨ n2.right = some x) →
              parentConsistentAt t2 x)))) := by
  constructor
  · intro hnone
    exact rotation_noop t c cn hcn hnone
  · intro p pn hp hpn hdir0 hpc hcsep hkids hpson
    constructor
    · intro hroot
      by_cases hdir : pn.right = some c
      · exact rotation_spec_root_left t c p cn pn ids hcn hreach hnd hp hpn hdir hpc
          hcsep hkids hpson hroot
      · have hdirl : pn.left = some c := by
          rcases hdir0 with h | h
          · exact absurd h hdir
          · exact h
        exact rotation_spec_root_right t c p cn pn ids hcn hreach hnd hp hpn hdir hdirl
          hpc hcsep hkids hpson hroot
    · intro g gn hnroot hgp hgn hgslot hpath hgp2 hgc hgm
      by_cases hdir : pn.right = some c
      · exact rotation_spec_nonroot_left t c p g cn pn gn ids hcn hreach hnd hp hpn hdir
          hpc hcsep hkids hpson hnroot hgp hgn hgslot hpath hgp2 hgc hgm
      · have hdirl : pn.left = some c := by
          rcases hdir0 with h | h
          · exact absurd h hdir
          · exact h
        exact rotation_spec_nonroot_right t c p g cn pn gn ids hcn hreach hnd hp hpn hdir
          hdirl hpc hcsep hkids hpson hnroot hgp hgn hgslot hpath hgp2 hgc hgm

/-- Witness for C6: a left rotation at node 2 (the right child of the
root) of the concrete seven-node tree `deepTree` succeeds, preserves the
in-order sequence and all colors, and makes node 2 the parentless new
root with consistent pointers. -/
theorem rotation_spec_witness :
    ∃ t2, rotation deepTree 2 = some t2 ∧
      inorder t2 = inorder deepTree ∧
      (∀ j, colorOf t2 j = colorOf deepTree j) ∧
      t2.root = some 2 ∧
      (∀ n2, getN t2 2 = some n2 → n2.parent = none) ∧
      parentConsistentAt t2 2 ∧ parentConsistentAt t2 0 ∧
      (∀ x n2, getN t2 0 = some n2 → (n2.left = some x ∨ n2.right = some x) →
        parentConsistentAt t2 x) := by
  have h := rotation_spec deepTree 2 ⟨6, 1, some 0, some 5, some 6⟩
    [0, 1, 3, 4, 2, 5, 6] rfl rfl (by decide)
  refine (h.2 0 ⟨4, 1, none, some 1, some 2⟩ rfl rfl (Or.inl rfl) (by decide)
    ?_ ?_ ?_).1 rfl
  · intro x hx
    rcases hx with hx | hx
    · obtain rfl : (5 : Nat) = x := Option.some.inj hx
      exact ⟨by decide, by decide⟩
    · obtain rfl : (6 : Nat) = x := Option.some.inj hx
      exact ⟨by decide, by decide⟩
  · intro x hx
    rcases hx with hx | hx
    · obtain rfl : (5 : Nat) = x := Option.some.inj hx
      exact ⟨⟨5, 1, some 2, none, none⟩, rfl⟩
    · obtain rfl : (6 : Nat) = x := Option.some.inj hx
      exact ⟨⟨7, 1, some 2, none, none⟩, rfl⟩
  · intro x hx hxc
    rcases hx with hx | hx
    · obtain rfl : (1 : Nat) = x := Option.some.inj hx
      refine ⟨by decide, ?_, ?_, ⟨2, 1, some 0, some 3, some 4⟩, rfl, rfl⟩
      · intro m hm
        rcases hm with hm | hm
        · obtain rfl : (5 : Nat) = m := Option.some.inj hm
          decide
        · obtain rfl : (6 : Nat) = m := Option.some.inj hm
          decide
      · intro g2 hg2
        exact Option.noConfusion hg2
    · obtain rfl : (2 : Nat) = x := Option.some.inj hx
      exact absurd rfl hxc

end RBT
